import Mathlib

/-!
Shallow embedding of the sshfwd repository (crates `sshfwd`, `sshfwd-agent`)
used to settle the specification claims.  Rust strings are modelled as
`List Char`; machine integers (`u16`, `u32`, `u64`) as `Nat` with explicit
bounds where the Rust code can overflow or reject a parse.
-/

set_option maxRecDepth 100000

namespace Sshfwd

/-! ### Models of Rust `str` primitives -/

/-- ASCII whitespace test. Rust `char::is_whitespace` is Unicode
`White_Space`; on the ASCII inputs handled by this program the two agree. -/
def isWs (c : Char) : Bool :=
  c = ' ' || c = '\t' || c = '\n' || c = '\r'

/-- Model of Rust `str::split(p)`: split at every separator character,
dropping separators and keeping empty chunks. -/
def splitBy (p : Char → Bool) : List Char → List (List Char)
  | [] => [[]]
  | c :: rest =>
    match splitBy p rest with
    | [] => [[]]
    | grp :: gs => if p c then [] :: grp :: gs else (c :: grp) :: gs

def dropLastEmpty (ls : List (List Char)) : List (List Char) :=
  if ls.getLast? = some [] then ls.dropLast else ls

def dropEndCR (cs : List Char) : List Char :=
  if cs.getLast? = some '\r' then cs.dropLast else cs

/-- Model of Rust `str::lines()`: split on `'\n'`, drop a final empty chunk
(produced by a trailing newline or by empty input), strip a trailing `'\r'`
from each line. -/
def rustLines (cs : List Char) : List (List Char) :=
  (dropLastEmpty (splitBy (· = '\n') cs)).map dropEndCR

/-- Model of Rust `str::split_whitespace()`. -/
def splitWs (cs : List Char) : List (List Char) :=
  (splitBy isWs cs).filter (· ≠ [])

/-- Model of Rust `str::split_once(p)`: split at the first separator. -/
def splitOnceBy (p : Char → Bool) : List Char → Option (List Char × List Char)
  | [] => none
  | c :: rest =>
    if p c then some ([], rest)
    else
      match splitOnceBy p rest with
      | none => none
      | some (l, r) => some (c :: l, r)

/-- Model of Rust `char::to_digit(16)`. -/
def hexVal? (c : Char) : Option Nat :=
  if '0' ≤ c ∧ c ≤ '9' then some (c.toNat - '0'.toNat)
  else if 'a' ≤ c ∧ c ≤ 'f' then some (c.toNat - 'a'.toNat + 10)
  else if 'A' ≤ c ∧ c ≤ 'F' then some (c.toNat - 'A'.toNat + 10)
  else none

/-- Model of Rust `char::to_digit(10)`. -/
def decVal? (c : Char) : Option Nat :=
  if '0' ≤ c ∧ c ≤ '9' then some (c.toNat - '0'.toNat) else none

def digitsLoop (dv : Char → Option Nat) (radix : Nat) : List Char → Nat → Option Nat
  | [], acc => some acc
  | c :: cs, acc =>
    match dv c with
    | none => none
    | some d => digitsLoop dv radix cs (acc * radix + d)

/-- The digit part of unsigned-integer parsing: at least one digit, value
bounded by `maxVal`. -/
def parseDigitsBounded (dv : Char → Option Nat) (radix maxVal : Nat)
    (digits : List Char) : Option Nat :=
  if digits = [] then none
  else
    match digitsLoop dv radix digits 0 with
    | none => none
    | some v => if v ≤ maxVal then some v else none

/-- Model of Rust `from_str_radix` / `str::parse` for an unsigned integer
type with maximum value `maxVal`: an optional leading `+`, at least one
digit, overflow is an error (Rust checks overflow step by step, which for a
chain of `acc * radix + d` updates is equivalent to the final bound check);
a leading minus is rejected outright on an unsigned type (the sign arm of
`from_str_radix` is guarded by `is_signed_ty`). -/
def parseUnsigned (dv : Char → Option Nat) (radix maxVal : Nat) (cs : List Char) : Option Nat :=
  match cs with
  | '+' :: rest => parseDigitsBounded dv radix maxVal rest
  | '-' :: _ => none
  | _ => parseDigitsBounded dv radix maxVal cs

def U16_MAX : Nat := 65535
def U32_MAX : Nat := 4294967295
def U64_MAX : Nat := 18446744073709551615

/-! ### Models of `std::net` address rendering -/

/-- Byte `i` (little-endian position) of a machine integer value. -/
def byteOf (v i : Nat) : Nat := v / 2 ^ (8 * i) % 256

def natDigits (n : Nat) : List Char := Nat.toDigits 10 n

/-- Model of `Ipv4Addr::from(v.swap_bytes()).to_string()` for a `u32` value
`v` parsed from /proc hex: the displayed octets are the little-endian bytes
of `v` in order. -/
def ipv4LeString (v : Nat) : List Char :=
  natDigits (byteOf v 0) ++ '.' :: natDigits (byteOf v 1) ++
    '.' :: natDigits (byteOf v 2) ++ '.' :: natDigits (byteOf v 3)

/-- The two 16-bit segments contributed by one little-endian 32-bit word of a
/proc/net/tcp6 address (after `swap_bytes().to_be_bytes()`). -/
def segsOfWord (w : Nat) : List Nat :=
  [byteOf w 0 * 256 + byteOf w 1, byteOf w 2 * 256 + byteOf w 3]

/-- Lowercase hex rendering of one IPv6 segment (Rust `{:x}`). -/
def hexSeg (n : Nat) : List Char := Nat.toDigits 16 n

/-- Colon-joined segment list (Rust `Ipv6Addr` display helper). -/
def fmtSegs : List Nat → List Char
  | [] => []
  | [s] => hexSeg s
  | s :: rest => hexSeg s ++ ':' :: fmtSegs rest

structure Span where
  start : Nat
  len : Nat

/-- Longest run of zero segments; on ties the first longest run wins
(Rust `Ipv6Addr` Display implementation). -/
def zeroRunLoop : List Nat → Nat → Span → Span → Span
  | [], _, _, best => best
  | s :: rest, i, cur, best =>
    if s = 0 then
      let cur2 : Span := ⟨if cur.len = 0 then i else cur.start, cur.len + 1⟩
      let best2 := if cur2.len > best.len then cur2 else best
      zeroRunLoop rest (i + 1) cur2 best2
    else zeroRunLoop rest (i + 1) ⟨0, 0⟩ best

def longestZeroRun (segs : List Nat) : Span := zeroRunLoop segs 0 ⟨0, 0⟩ ⟨0, 0⟩

/-- Model of `Ipv6Addr::to_string()` on a list of eight 16-bit segments:
special cases for the unspecified address, loopback and IPv4-mapped
addresses, otherwise zero-run compression. -/
def ipv6SegsString (segs : List Nat) : List Char :=
  if segs = [0, 0, 0, 0, 0, 0, 0, 0] then "::".data
  else if segs = [0, 0, 0, 0, 0, 0, 0, 1] then "::1".data
  else if segs.take 6 = [0, 0, 0, 0, 0, 65535] then
    let s6 := segs.getD 6 0
    let s7 := segs.getD 7 0
    "::ffff:".data ++ natDigits (s6 / 256) ++ '.' :: natDigits (s6 % 256) ++
      '.' :: natDigits (s7 / 256) ++ '.' :: natDigits (s7 % 256)
  else
    let z := longestZeroRun segs
    if z.len > 1 then
      fmtSegs (segs.take z.start) ++ ':' :: ':' :: fmtSegs (segs.drop (z.start + z.len))
    else fmtSegs segs

/-! ### crates/sshfwd-agent/src/scanner/proc_net_tcp.rs -/

inductive Protocol
  | tcp
  | tcp6
deriving DecidableEq, Repr

structure TcpEntry where
  protocol : Protocol
  local_addr : List Char
  port : Nat
  uid : Nat
  inode : Nat
deriving DecidableEq, Repr

def LISTEN_STATE : List Char := "0A".data

/-- `parse_ipv6_addr`: a 32-nibble hex string is read as four little-endian
32-bit words, whose bytes concatenate to the 16 address octets. -/
def parse_ipv6_addr (hex : List Char) : Option (List Char) :=
  if hex.length ≠ 32 then none
  else
    match parseUnsigned hexVal? 16 U32_MAX (hex.take 8),
        parseUnsigned hexVal? 16 U32_MAX ((hex.drop 8).take 8),
        parseUnsigned hexVal? 16 U32_MAX ((hex.drop 16).take 8),
        parseUnsigned hexVal? 16 U32_MAX ((hex.drop 24).take 8) with
    | some w0, some w1, some w2, some w3 =>
      some (ipv6SegsString (segsOfWord w0 ++ segsOfWord w1 ++ segsOfWord w2 ++ segsOfWord w3))
    | _, _, _, _ => none

/-- `parse_address`: split `addr:port` at the first colon, parse the port as
16-bit hex, then decode the address according to the protocol, requiring
8 nibbles for tcp4 and 32 nibbles for tcp6. -/
def parse_address (addr_port : List Char) (protocol : Protocol) : Option (List Char × Nat) :=
  match splitOnceBy (· = ':') addr_port with
  | none => none
  | some (addr_hex, port_hex) =>
    match parseUnsigned hexVal? 16 U16_MAX port_hex with
    | none => none
    | some port =>
      match protocol with
      | .tcp =>
        if addr_hex.length ≠ 8 then none
        else
          match parseUnsigned hexVal? 16 U32_MAX addr_hex with
          | none => none
          | some v => some (ipv4LeString v, port)
      | .tcp6 =>
        if addr_hex.length ≠ 32 then none
        else
          match parse_ipv6_addr addr_hex with
          | none => none
          | some s => some (s, port)

/-- One iteration of the `parse_proc_net_tcp` loop body: every `continue`
in the Rust code becomes `none`. -/
def parseLine (protocol : Protocol) (line : List Char) : Option TcpEntry :=
  let fields := splitWs line
  if fields.length < 12 then none
  else if fields.getD 3 [] ≠ LISTEN_STATE then none
  else
    match parse_address (fields.getD 1 []) protocol with
    | none => none
    | some (addr_str, port) =>
      match parseUnsigned decVal? 10 U32_MAX (fields.getD 7 []) with
      | none => none
      | some uid =>
        match parseUnsigned decVal? 10 U64_MAX (fields.getD 9 []) with
        | none => none
        | some inode => some ⟨protocol, addr_str, port, uid, inode⟩

/-- The accumulator loop of `parse_proc_net_tcp` (`entries.push`). -/
def parseLoop (protocol : Protocol) : List (List Char) → List TcpEntry → List TcpEntry
  | [], acc => acc
  | l :: ls, acc =>
    match parseLine protocol l with
    | none => parseLoop protocol ls acc
    | some e => parseLoop protocol ls (acc ++ [e])

/-- `parse_proc_net_tcp`: iterate over `content.lines().skip(1)`. -/
def parse_proc_net_tcp (content : List Char) (protocol : Protocol) : List TcpEntry :=
  parseLoop protocol ((rustLines content).drop 1) []

/-- Strip a literal start segment from a list (model of `str` stripping the
given leading characters, `None` when they are not there). -/
def dropStart? : List Char → List Char → Option (List Char)
  | [], cs => some cs
  | _ :: _, [] => none
  | p :: ps, c :: cs => if p = c then dropStart? ps cs else none

/-- `normalize_addr`: map `::ffff:x.x.x.x` to `x.x.x.x`. -/
def normalize_addr (addr : List Char) : List Char :=
  match dropStart? "::ffff:".data addr with
  | some v4 => v4
  | none => addr

def entryKey (e : TcpEntry) : Nat × List Char := (e.port, normalize_addr e.local_addr)

/-- `dedup_entries` keeps, for every `(port, normalized address)` key, the
first entry carrying that key (`HashMap::entry(..).or_insert`).  The Rust
`into_values()` returns the kept entries in unspecified hash order; the model
fixes first-occurrence order, which agrees with the Rust result as a set. -/
def dedupLoop : List TcpEntry → List (Nat × List Char) → List TcpEntry
  | [], _ => []
  | e :: rest, seen =>
    if entryKey e ∈ seen then dedupLoop rest seen
    else e :: dedupLoop rest (entryKey e :: seen)

def dedup_entries (entries : List TcpEntry) : List TcpEntry := dedupLoop entries []

/-! ### Byte-faithful model of the parser

Rust `str::len` counts BYTES and `&s[a..b]` slices by BYTE offsets,
panicking when an offset falls strictly inside a multibyte character.  The
definitions below model that byte structure (a panic is `Except.error ()`,
propagating out of the whole parse), where the char-level definitions above
cannot express it. -/

/-- UTF-8 byte length of a character list (Rust `str::len`). -/
def utf8Len (cs : List Char) : Nat := (cs.map Char.utf8Size).sum

/-- Advance past `n` bytes of a string (the start offset of a Rust slice):
a panic when `n` overruns the string or is not a character boundary. -/
def byteDrop : List Char → Nat → Except Unit (List Char)
  | cs, 0 => .ok cs
  | [], _ + 1 => .error ()
  | c :: cs, n + 1 =>
    if c.utf8Size ≤ n + 1 then byteDrop cs (n + 1 - c.utf8Size) else .error ()

/-- Take the first `n` bytes of a string (the end offset of a Rust slice):
a panic when `n` overruns the string or is not a character boundary. -/
def byteTake : List Char → Nat → Except Unit (List Char)
  | _, 0 => .ok []
  | [], _ + 1 => .error ()
  | c :: cs, n + 1 =>
    if c.utf8Size ≤ n + 1 then
      match byteTake cs (n + 1 - c.utf8Size) with
      | .ok t => .ok (c :: t)
      | .error e => .error e
    else .error ()

/-- Model of Rust `&s[a..b]` with byte offsets: the sliced characters, or a
panic when an offset is out of bounds or not a character boundary. -/
def byteSlice (cs : List Char) (a b : Nat) : Except Unit (List Char) :=
  match byteDrop cs a with
  | .error e => .error e
  | .ok t => byteTake t (b - a)

/-- Byte-faithful `parse_ipv6_addr`: after the 32-BYTE length check, Rust
slices `&hex[i * 8..(i + 1) * 8]` by byte offsets, interleaved with the word
parses; a multibyte character straddling offset 8, 16 or 24 panics. -/
def parse_ipv6_addrB (hex : List Char) : Except Unit (Option (List Char)) :=
  if utf8Len hex ≠ 32 then .ok none
  else
    match byteSlice hex 0 8 with
    | .error e => .error e
    | .ok h0 =>
      match parseUnsigned hexVal? 16 U32_MAX h0 with
      | none => .ok none
      | some w0 =>
        match byteSlice hex 8 16 with
        | .error e => .error e
        | .ok h1 =>
          match parseUnsigned hexVal? 16 U32_MAX h1 with
          | none => .ok none
          | some w1 =>
            match byteSlice hex 16 24 with
            | .error e => .error e
            | .ok h2 =>
              match parseUnsigned hexVal? 16 U32_MAX h2 with
              | none => .ok none
              | some w2 =>
                match byteSlice hex 24 32 with
                | .error e => .error e
                | .ok h3 =>
                  match parseUnsigned hexVal? 16 U32_MAX h3 with
                  | none => .ok none
                  | some w3 =>
                    .ok (some (ipv6SegsString
                      (segsOfWord w0 ++ segsOfWord w1 ++ segsOfWord w2 ++ segsOfWord w3)))

/-- Byte-faithful `parse_address`: the nibble-length checks count bytes
(`str::len`); only the tcp6 path can panic (the tcp4 path never slices). -/
def parse_addressB (addr_port : List Char) (protocol : Protocol) :
    Except Unit (Option (List Char × Nat)) :=
  match splitOnceBy (fun c => c = ':') addr_port with
  | none => .ok none
  | some (addr_hex, port_hex) =>
    match parseUnsigned hexVal? 16 U16_MAX port_hex with
    | none => .ok none
    | some port =>
      match protocol with
      | .tcp =>
        if utf8Len addr_hex ≠ 8 then .ok none
        else
          match parseUnsigned hexVal? 16 U32_MAX addr_hex with
          | none => .ok none
          | some v => .ok (some (ipv4LeString v, port))
      | .tcp6 =>
        if utf8Len addr_hex ≠ 32 then .ok none
        else
          match parse_ipv6_addrB addr_hex with
          | .error e => .error e
          | .ok none => .ok none
          | .ok (some s) => .ok (some (s, port))

/-- Byte-faithful loop body of `parse_proc_net_tcp`: `continue` is
`.ok none`, a slice panic aborts. -/
def parseLineB (protocol : Protocol) (line : List Char) : Except Unit (Option TcpEntry) :=
  let fields := splitWs line
  if fields.length < 12 then .ok none
  else if fields.getD 3 [] ≠ LISTEN_STATE then .ok none
  else
    match parse_addressB (fields.getD 1 []) protocol with
    | .error e => .error e
    | .ok none => .ok none
    | .ok (some ap) =>
      match parseUnsigned decVal? 10 U32_MAX (fields.getD 7 []) with
      | none => .ok none
      | some uid =>
        match parseUnsigned decVal? 10 U64_MAX (fields.getD 9 []) with
        | none => .ok none
        | some inode => .ok (some ⟨protocol, ap.1, ap.2, uid, inode⟩)

/-- Byte-faithful accumulator loop: a panic on any line aborts the parse. -/
def parseLoopB (protocol : Protocol) :
    List (List Char) → List TcpEntry → Except Unit (List TcpEntry)
  | [], acc => .ok acc
  | l :: ls, acc =>
    match parseLineB protocol l with
    | .error e => .error e
    | .ok none => parseLoopB protocol ls acc
    | .ok (some e) => parseLoopB protocol ls (acc ++ [e])

/-- Byte-faithful `parse_proc_net_tcp`: the returned list, or the panic. -/
def parse_proc_net_tcpB (content : List Char) (protocol : Protocol) :
    Except Unit (List TcpEntry) :=
  parseLoopB protocol ((rustLines content).drop 1) []

/-- Whether a fallible line parse produced a record. -/
def exceptSome {α : Type} : Except Unit (Option α) → Bool
  | .ok (some _) => true
  | _ => false

instance {ε α : Type} [DecidableEq ε] [DecidableEq α] : DecidableEq (Except ε α) := fun x y =>
  match x, y with
  | .ok a, .ok b =>
    if h : a = b then isTrue (by rw [h]) else isFalse fun hh => h (Except.ok.inj hh)
  | .error a, .error b =>
    if h : a = b then isTrue (by rw [h]) else isFalse fun hh => h (Except.error.inj hh)
  | .ok _, .error _ => isFalse fun hh => Except.noConfusion hh
  | .error _, .ok _ => isFalse fun hh => Except.noConfusion hh

/-! ### crates/sshfwd-common/src/types.rs -/

structure ProcessInfo where
  pid : Nat
  name : List Char
  cmdline : List Char
  uid : Nat
deriving DecidableEq, Repr

structure ListeningPort where
  protocol : Protocol
  local_addr : List Char
  port : Nat
  process : Option ProcessInfo
deriving DecidableEq, Repr

/-- `LinuxScanner::scan` maps each deduplicated entry to a `ListeningPort`,
attaching the process found for its inode (`inode_to_process.get`); the
inode-to-process map built from /proc is abstracted as `attr`. -/
def toListeningPort (attr : Nat → Option ProcessInfo) (e : TcpEntry) : ListeningPort :=
  ⟨e.protocol, e.local_addr, e.port, attr e.inode⟩

/-! ### crates/sshfwd/src/app.rs — scan sorting -/

def protoOrd : Protocol → Nat
  | .tcp => 0
  | .tcp6 => 1

/-- `a.process.as_ref().map_or(0, |p| p.pid)`. -/
def pidOf (p : ListeningPort) : Nat := (p.process.map (·.pid)).getD 0

/-- The comparator passed to `ports.sort_by` in `update`
(`Message::ScanReceived`): port, then pid-or-0, then tcp before tcp6. -/
def cmpPorts (a b : ListeningPort) : Ordering :=
  (compare a.port b.port).then
    ((compare (pidOf a) (pidOf b)).then (compare (protoOrd a.protocol) (protoOrd b.protocol)))

/-- The non-strict order realised by `sort_by` with `cmpPorts`. -/
def portLe (a b : ListeningPort) : Prop := cmpPorts a b ≠ .gt

instance : DecidableRel portLe := fun _ _ => instDecidableNot

/-- `ports.sort_by(..)` modelled as a stable sort with respect to `portLe`
(Rust `sort_by` is a stable sort with the same comparator). -/
def sortPorts (l : List ListeningPort) : List ListeningPort := List.insertionSort portLe l

/-- The key on which `dedup_entries` collapses entries, transported to
`ListeningPort`. -/
def portKey (p : ListeningPort) : Nat × List Char := (p.port, normalize_addr p.local_addr)

/-! ### crates/sshfwd/src/forward/mod.rs — reconciliation -/

inductive ForwardStatus
  | active
  | paused
  | starting
deriving DecidableEq, Repr

structure ForwardEntry where
  local_port : Nat
  status : ForwardStatus
  active_connections : Nat
deriving DecidableEq, Repr

inductive ForwardCommand
  | start (remote_port local_port : Nat) (remote_host : List Char)
  | stop (remote_port : Nat)
  | reactivate (remote_port local_port : Nat) (remote_host : List Char)
  | pause (remote_port : Nat)
deriving DecidableEq, Repr

/-- The body of the command-emission loop of `reconcile_forwards` for one
`(remote_port, entry)` pair: `Pause` for an active or starting entry whose
port left the scan, `Reactivate` for a paused entry whose port is back. -/
def genCmd (current : List Nat) (remote_host : List Char) (pe : Nat × ForwardEntry) :
    Option ForwardCommand :=
  match pe.2.status with
  | .active | .starting =>
    if pe.1 ∈ current then none else some (.pause pe.1)
  | .paused =>
    if pe.1 ∈ current then some (.reactivate pe.1 pe.2.local_port remote_host) else none

/-- The command-emission loop of `reconcile_forwards` (also inlined in
`app::update` for `Message::ScanReceived`): the forwards map is modelled as
an association list with distinct keys, the scan's port set as a list with
membership. -/
def reconcileCommands (forwards : List (Nat × ForwardEntry)) (current : List Nat)
    (remote_host : List Char) : List ForwardCommand :=
  forwards.filterMap (genCmd current remote_host)

/-- `forwards.get_mut(remote_port)` followed by a status write. -/
def setStatus (forwards : List (Nat × ForwardEntry)) (p : Nat) (s : ForwardStatus) :
    List (Nat × ForwardEntry) :=
  forwards.map fun qe => if qe.1 = p then (qe.1, { qe.2 with status := s }) else qe

/-- The status-update loop of `reconcile_forwards` over the commands just
produced. -/
def applyStatusUpdates (forwards : List (Nat × ForwardEntry)) (cmds : List ForwardCommand) :
    List (Nat × ForwardEntry) :=
  cmds.foldl
    (fun f c =>
      match c with
      | .pause p => setStatus f p .paused
      | .reactivate p _ _ => setStatus f p .starting
      | _ => f)
    forwards

/-- `reconcile_forwards`: emitted commands plus the updated forwards map. -/
def reconcile_forwards (forwards : List (Nat × ForwardEntry)) (current : List Nat)
    (remote_host : List Char) : List ForwardCommand × List (Nat × ForwardEntry) :=
  let cmds := reconcileCommands forwards current remote_host
  (cmds, applyStatusUpdates forwards cmds)

/-- The remote port a command addresses. -/
def cmdRemotePort : ForwardCommand → Nat
  | .start p _ _ => p
  | .stop p => p
  | .reactivate p _ _ => p
  | .pause p => p

/-- The status write performed by the second loop of `reconcile_forwards`
for one command, when any. -/
def cmdStatusTarget : ForwardCommand → Option (Nat × ForwardStatus)
  | .pause p => some (p, .paused)
  | .reactivate p _ _ => some (p, .starting)
  | _ => none

/-! ### crates/sshfwd/src/discovery/mod.rs -/

def MAX_CONSECUTIVE_TIMEOUTS : Nat := 3

def STALENESS_TIMEOUT_SECS : Nat := 6

/-- Result of `serde_json::from_str::<AgentResponse>` on a received line
(the JSON decoder itself is external). -/
inductive LineDecode
  | scanOk
  | agentError
  | malformed
deriving DecidableEq, Repr

/-- Outcome of one `tokio::time::timeout(.., next_line())` await. -/
inductive ReadOutcome
  | line (d : LineDecode)
  | eof
  | ioErr
  | timeout
deriving DecidableEq, Repr

inductive DEvent
  | scanEvt
  | warningAgent
  | warningTimeout (n max secs : Nat)
  | errorParse
  | errorIo
  | errorStreamEnded
  | errorTimeout (secs consecutive : Nat)
deriving DecidableEq, Repr

/-- `DiscoveryStream::next_event` as a transition on the
`consecutive_timeouts` counter: returns the new counter and the event. -/
def next_event (consecutive_timeouts : Nat) (r : ReadOutcome) : Nat × DEvent :=
  match r with
  | .line d =>
    (0,
      match d with
      | .scanOk => .scanEvt
      | .agentError => .warningAgent
      | .malformed => .errorParse)
  | .eof => (consecutive_timeouts, .errorStreamEnded)
  | .ioErr => (consecutive_timeouts, .errorIo)
  | .timeout =>
    let n := consecutive_timeouts + 1
    (n,
      if n ≥ MAX_CONSECUTIVE_TIMEOUTS then .errorTimeout STALENESS_TIMEOUT_SECS n
      else .warningTimeout n MAX_CONSECUTIVE_TIMEOUTS STALENESS_TIMEOUT_SECS)

/-- Repeated calls to `next_event`, collecting the produced events. -/
def runEvents (counter : Nat) : List ReadOutcome → List DEvent × Nat
  | [] => ([], counter)
  | r :: rs =>
    let step := next_event counter r
    let rest := runEvents step.1 rs
    (step.2 :: rest.1, rest.2)

/-! ### crates/sshfwd/src/forward/persistence.rs -/

structure PersistedForward where
  remote_port : Nat
  local_port : Nat
deriving DecidableEq, Repr

/-- The decoded content of `~/.sshfwd/forwards.json`
(`HashMap<String, Vec<PersistedForward>>`), modelled as an association
list. -/
abbrev ForwardsFile := List (List Char × List PersistedForward)

def fileLookup (f : ForwardsFile) (dest : List Char) : Option (List PersistedForward) :=
  (f.find? (fun kv => kv.1 = dest)).map (·.2)

/-- `HashMap::insert`: replace the value stored under an existing key, or
add the binding. -/
def fileInsert (f : ForwardsFile) (dest : List Char) (v : List PersistedForward) : ForwardsFile :=
  if (f.find? (fun kv => kv.1 = dest)).isSome then
    f.map fun kv => if kv.1 = dest then (dest, v) else kv
  else f ++ [(dest, v)]

/-- `HashMap::remove`. -/
def fileRemove (f : ForwardsFile) (dest : List Char) : ForwardsFile :=
  f.filter fun kv => kv.1 ≠ dest

/-- `load_forwards`: `none` models a file that could not be read or whose
content did not parse (both return an empty list); otherwise the
destination's stored list, defaulting to empty. -/
def load_forwards (file : Option ForwardsFile) (dest : List Char) : List PersistedForward :=
  match file with
  | none => []
  | some f => (fileLookup f dest).getD []

/-- `save_forwards`: re-read the file (unreadable or unparseable being the
empty map), then remove the destination when the list is empty and store it
otherwise.  The serialisation back to disk is external. -/
def save_forwards (file : Option ForwardsFile) (dest : List Char)
    (forwards : List PersistedForward) : ForwardsFile :=
  let f := file.getD []
  if forwards = [] then fileRemove f dest else fileInsert f dest forwards

/-! ### crates/sshfwd/src/ssh/session.rs — client config resolution -/

/-- Model of Rust `str::trim` (ASCII whitespace, see `isWs`). -/
def trimL (cs : List Char) : List Char :=
  ((cs.dropWhile isWs).reverse.dropWhile isWs).reverse

def asciiLow (c : Char) : Char :=
  if 'A' ≤ c ∧ c ≤ 'Z' then Char.ofNat (c.toNat + 32) else c

/-- Model of Rust `str::eq_ignore_ascii_case`. -/
def eqIgnoreCase (a b : List Char) : Bool := a.map asciiLow == b.map asciiLow

/-- Strip a literal end segment from a list. -/
def dropEnd? (suf cs : List Char) : Option (List Char) :=
  (dropStart? suf.reverse cs.reverse).map List.reverse

/-- `host_pattern_matches`: exact, `*`, leading-star and trailing-star
patterns. -/
def host_pattern_matches (pattern host : List Char) : Bool :=
  if pattern = ['*'] then true
  else
    match dropEnd? ['*'] pattern with
    | some pre => pre.isPrefixOf host
    | none =>
      match dropStart? ['*'] pattern with
      | some suf => suf.isSuffixOf host
      | none => pattern == host

structure SshHostConfig where
  hostname : Option (List Char)
  port : Option Nat
  user : Option (List Char)
  proxy_jump : Option (List Char)
  identity_files : List (List Char)
deriving DecidableEq, Repr

def emptyHostConfig : SshHostConfig := ⟨none, none, none, none, []⟩

/-- `~/` expansion of an `IdentityFile` value. -/
def expandHome (home v : List Char) : List Char :=
  match dropStart? "~/".data v with
  | some rest => home ++ '/' :: rest
  | none => v

/-- How `parse_ssh_host_config` treats one line of `~/.ssh/config`: skipped
(blank, comment, or no key/value separator), a `Host` line (with its match
result for the queried host), a `Match` line, or a directive. -/
inductive LineAction
  | skip
  | hostLine (isMatch : Bool)
  | matchLine
  | directive (key value : List Char)
deriving DecidableEq, Repr

def classifyLine (host line : List Char) : LineAction :=
  let t := trimL line
  if t = [] then .skip
  else if t.headD ' ' = '#' then .skip
  else
    match splitOnceBy (fun c => isWs c || c = '=') t with
    | none => .skip
    | some kv =>
      let key := trimL kv.1
      let value := trimL kv.2
      if eqIgnoreCase key "Host".data then
        .hostLine ((splitWs value).any fun p => host_pattern_matches p host)
      else if eqIgnoreCase key "Match".data then .matchLine
      else .directive key value

/-- The directive branch of the `parse_ssh_host_config` loop (only reached
while `in_matching_block`); returns the updated `seen_proxy_jump` flag and
config. -/
def applyDirective (home key value : List Char) (seenPJ : Bool) (cfg : SshHostConfig) :
    Bool × SshHostConfig :=
  if eqIgnoreCase key "ProxyJump".data && !seenPJ then
    (true, if eqIgnoreCase value "none".data then cfg else { cfg with proxy_jump := some value })
  else if eqIgnoreCase key "HostName".data && cfg.hostname.isNone then
    (seenPJ, { cfg with hostname := some value })
  else if eqIgnoreCase key "User".data && cfg.user.isNone then
    (seenPJ, { cfg with user := some value })
  else if eqIgnoreCase key "Port".data && cfg.port.isNone then
    (seenPJ, { cfg with port := parseUnsigned decVal? 10 U16_MAX value })
  else if eqIgnoreCase key "IdentityFile".data then
    (seenPJ, { cfg with identity_files := cfg.identity_files ++ [expandHome home value] })
  else (seenPJ, cfg)

/-- The line loop of `parse_ssh_host_config`, carrying `in_matching_block`
and `seen_proxy_jump`. -/
def processLines (home host : List Char) :
    List (List Char) → Bool → Bool → SshHostConfig → SshHostConfig
  | [], _, _, cfg => cfg
  | line :: rest, inBlock, seenPJ, cfg =>
    match classifyLine host line with
    | .skip => processLines home host rest inBlock seenPJ cfg
    | .hostLine m => processLines home host rest m seenPJ cfg
    | .matchLine => processLines home host rest false seenPJ cfg
    | .directive k v =>
      if inBlock then
        let r := applyDirective home k v seenPJ cfg
        processLines home host rest inBlock r.1 r.2
      else processLines home host rest inBlock seenPJ cfg

/-- `parse_ssh_host_config` with the config file content and `$HOME` as
explicit inputs. -/
def parse_ssh_host_config (home host content : List Char) : SshHostConfig :=
  processLines home host (rustLines content) false false emptyHostConfig

/-- The directive lines that `parse_ssh_host_config` sees while
`in_matching_block` holds, in order. -/
def matchingDirs (host : List Char) : List (List Char) → Bool → List (List Char × List Char)
  | [], _ => []
  | line :: rest, inBlock =>
    match classifyLine host line with
    | .skip => matchingDirs host rest inBlock
    | .hostLine m => matchingDirs host rest m
    | .matchLine => matchingDirs host rest false
    | .directive k v =>
      if inBlock then (k, v) :: matchingDirs host rest inBlock
      else matchingDirs host rest inBlock

/-- Modelled from the spec's words (resolution semantics): resolve a
directive list with first-occurrence-wins for `HostName`, `User`,
`ProxyJump` (value `none` meaning no jump) and `Port` (first value that
parses as a 16-bit integer), and accumulation in order for
`IdentityFile`. -/
def resolveDirs (home : List Char) : List (List Char × List Char) → SshHostConfig
  | [] => emptyHostConfig
  | (k, v) :: ds =>
    let r := resolveDirs home ds
    if eqIgnoreCase k "ProxyJump".data then
      { r with proxy_jump := if eqIgnoreCase v "none".data then none else some v }
    else if eqIgnoreCase k "HostName".data then { r with hostname := some v }
    else if eqIgnoreCase k "User".data then { r with user := some v }
    else if eqIgnoreCase k "Port".data then
      { r with port := (parseUnsigned decVal? 10 U16_MAX v).or r.port }
    else if eqIgnoreCase k "IdentityFile".data then
      { r with identity_files := expandHome home v :: r.identity_files }
    else r

/-- Modelled from the spec's words for claim C8: the directive lines of the
first matching `Host` block only, the block ending at the next `Host` or
`Match` line. -/
def firstBlockDirs (host : List Char) : List (List Char) → Bool → List (List Char × List Char)
  | [], _ => []
  | line :: rest, inFirst =>
    match classifyLine host line with
    | .skip => firstBlockDirs host rest inFirst
    | .hostLine m => if inFirst then [] else firstBlockDirs host rest m
    | .matchLine => if inFirst then [] else firstBlockDirs host rest inFirst
    | .directive k v =>
      if inFirst then (k, v) :: firstBlockDirs host rest inFirst
      else firstBlockDirs host rest inFirst

/-- Modelled from the spec's words for claim C8: resolution that takes every
field from the first matching `Host` block only. -/
def firstMatchingBlockConfig (home host content : List Char) : SshHostConfig :=
  resolveDirs home (firstBlockDirs host (rustLines content) false)

/-- Resolution over the directives of all matching `Host` blocks
(first-occurrence-wins, identity files accumulated) — the amended reading of
claim C8. -/
def allMatchingBlocksConfig (home host content : List Char) : SshHostConfig :=
  resolveDirs home (matchingDirs host (rustLines content) false)

/-- The value of the first `ProxyJump` directive in a directive list. -/
def pjFirst (ds : List (List Char × List Char)) : Option (List Char) :=
  (ds.find? fun d => eqIgnoreCase d.1 "ProxyJump".data).map (·.2)

/-- How a directive list refines an already-accumulated `proxy_jump` value
when `seen_proxy_jump` is still unset. -/
def pjResolve (cfgPJ : Option (List Char)) (ds : List (List Char × List Char)) :
    Option (List Char) :=
  match pjFirst ds with
  | none => cfgPJ
  | some v => if eqIgnoreCase v "none".data then cfgPJ else some v

/-- The config reached by running the `parse_ssh_host_config` loop from an
intermediate state `(cfg, seenPJ)` over a remaining directive list: scalar
fields keep their already-set values, identity files accumulate. -/
def mergeSpec (cfg : SshHostConfig) (seenPJ : Bool) (home : List Char)
    (ds : List (List Char × List Char)) : SshHostConfig :=
  { hostname := cfg.hostname.or (resolveDirs home ds).hostname
    port := cfg.port.or (resolveDirs home ds).port
    user := cfg.user.or (resolveDirs home ds).user
    proxy_jump := if seenPJ then cfg.proxy_jump else pjResolve cfg.proxy_jump ds
    identity_files := cfg.identity_files ++ (resolveDirs home ds).identity_files }

/-! ### Predicates and concrete inputs used by the claims -/

/-- The validity condition claimed for one socket-table line: at least 12
whitespace-separated fields, state field `0A`, a hex `addr:port` of the
correct nibble length in field 1, a decimal UID in field 7 and a decimal
inode in field 9. -/
def lineValid (protocol : Protocol) (line : List Char) : Bool :=
  let fields := splitWs line
  decide (12 ≤ fields.length) && decide (fields.getD 3 [] = LISTEN_STATE) &&
    (parse_address (fields.getD 1 []) protocol).isSome &&
    (parseUnsigned decVal? 10 U32_MAX (fields.getD 7 [])).isSome &&
    (parseUnsigned decVal? 10 U64_MAX (fields.getD 9 [])).isSome

/-- The loopback LISTEN line from the repository's own test fixture. -/
def listenLine1337 : List Char :=
  ("   0: 0100007F:0539 00000000:0000 0A 00000000:00000000 00:00000000 00000000" ++
    "   108        0 12345 1 0000000000000000 100 0 0 10 0").data

/-- A socket table whose single LISTEN line carries port hex `0000`. -/
def portZeroContent : List Char :=
  ("  sl  local_address rem_address   st tx uid inode\n" ++
    "   0: 0100007F:0000 00000000:0000 0A 00000000:00000000 00:00000000 00000000" ++
    "   108        0 12345 1 0\n").data

/-- A tcp6 table with one line whose address hex has 30 nibbles (skipped)
followed by a well-formed LISTEN line. -/
def skipDemoTcp6Content : List Char :=
  ("header\n" ++
    "   0: 000000000000000000000000000000:1F90 00000000000000000000000000000000:0000" ++
    " 0A 0 0 0 1000 0 11111 1 0\n" ++
    "   1: 00000000000000000000000000000000:1F90 00000000000000000000000000000000:0000" ++
    " 0A 0 0 0 1000 0 22222 1 0\n").data

/-- The validity condition of claim C4 over the byte-faithful parser: at
least 12 whitespace-separated fields, state `0A`, a hex `addr:port` of the
correct byte length in field 1, a decimal UID in field 7 and a decimal inode
in field 9. -/
def lineValidB (protocol : Protocol) (line : List Char) : Bool :=
  let fields := splitWs line
  decide (12 ≤ fields.length) && decide (fields.getD 3 [] = LISTEN_STATE) &&
    exceptSome (parse_addressB (fields.getD 1 []) protocol) &&
    (parseUnsigned decVal? 10 U32_MAX (fields.getD 7 [])).isSome &&
    (parseUnsigned decVal? 10 U64_MAX (fields.getD 9 [])).isSome

/-- A LISTEN line whose tcp6 address hex is 32 BYTES long but has the
3-byte character `€` straddling byte offset 8 (7 ASCII nibbles, then `€`,
then 22 ASCII nibbles): Rust's `&hex[0..8]` panics on it. -/
def straddleLine : List Char :=
  ("   1: 0000000€0000000000000000000000:0050 00000000000000000000000000000000:0000" ++
    " 0A 0 0 0 1000 0 33333 1 0").data

/-- A table holding only the straddling line. -/
def panicOnlyContent : List Char :=
  ("header\n" ++
    "   1: 0000000€0000000000000000000000:0050 00000000000000000000000000000000:0000" ++
    " 0A 0 0 0 1000 0 33333 1 0\n").data

/-- A table with a fully valid LISTEN line followed by the straddling
line: the panic aborts the parse, so even the valid line yields nothing. -/
def validThenPanicContent : List Char :=
  ("header\n" ++
    "   0: 00000000000000000000000000000000:1F90 00000000000000000000000000000000:0000" ++
    " 0A 0 0 0 1000 0 22222 1 0\n" ++
    "   1: 0000000€0000000000000000000000:0050 00000000000000000000000000000000:0000" ++
    " 0A 0 0 0 1000 0 33333 1 0\n").data

/-- The dual-stack pair `127.0.0.1:1337/tcp`, `::ffff:127.0.0.1:1337/tcp6`. -/
def dedupPairMapped : List TcpEntry :=
  [⟨.tcp, "127.0.0.1".data, 1337, 108, 111⟩, ⟨.tcp6, "::ffff:127.0.0.1".data, 1337, 108, 222⟩]

/-- The genuinely distinct pair `0.0.0.0:8080/tcp`, `:::8080/tcp6`. -/
def dedupPairWild : List TcpEntry :=
  [⟨.tcp, "0.0.0.0".data, 8080, 1000, 111⟩, ⟨.tcp6, "::".data, 8080, 1000, 222⟩]

/-- A client config with two `Host` blocks matching the same host, the
second contributing `IdentityFile` and `Port` directives. -/
def twoBlockConfig : List Char :=
  "Host myhost\nHostName first.example\nHost myhost\nIdentityFile /id2\nPort 2222\n".data

/-! ## Theorems -/

/-! ### Claim C3 — discovery timeout chain -/

/-- Claim C3: on the discovery stream, each per-read timeout (6 seconds)
increments the consecutive-timeout counter; the first two consecutive
timeouts each produce a `Warning` carrying `(n, max = 3)`; the third produces
the terminal `Timeout` error; and any successfully decoded line (indeed any
received line) resets the counter to zero. -/
theorem discovery_timeout_chain :
    STALENESS_TIMEOUT_SECS = 6 ∧
    MAX_CONSECUTIVE_TIMEOUTS = 3 ∧
    (∀ c, next_event c .timeout =
      (c + 1,
        if c + 1 ≥ MAX_CONSECUTIVE_TIMEOUTS then
          DEvent.errorTimeout STALENESS_TIMEOUT_SECS (c + 1)
        else DEvent.warningTimeout (c + 1) MAX_CONSECUTIVE_TIMEOUTS STALENESS_TIMEOUT_SECS)) ∧
    (∀ c d, (next_event c (.line d)).1 = 0) ∧
    runEvents 0 [.timeout, .timeout, .timeout] =
      ([.warningTimeout 1 3 6, .warningTimeout 2 3 6, .errorTimeout 6 3], 3) ∧
    (∀ c, runEvents c [.line .scanOk, .timeout, .timeout, .timeout] =
      ([.scanEvt, .warningTimeout 1 3 6, .warningTimeout 2 3 6, .errorTimeout 6 3], 3)) :=
  ⟨rfl, rfl, fun _ => rfl, fun _ _ => rfl, by decide, fun _ => rfl⟩

/-! ### Claim C9 — forwards persistence -/

theorem fileLookup_nil (d : List Char) : fileLookup [] d = none := rfl

theorem fileLookup_cons (kv : List Char × List PersistedForward) (rest : ForwardsFile)
    (d : List Char) :
    fileLookup (kv :: rest) d = if kv.1 = d then some kv.2 else fileLookup rest d := by
  unfold fileLookup
  rw [List.find?_cons]
  by_cases h : kv.1 = d <;> simp [h]

theorem fileLookup_fileRemove (f : ForwardsFile) (dest d : List Char) :
    fileLookup (fileRemove f dest) d = if d = dest then none else fileLookup f d := by
  induction f with
  | nil =>
    unfold fileRemove
    by_cases hd : d = dest <;> simp [hd, fileLookup_nil]
  | cons kv rest ih =>
    unfold fileRemove at *
    rw [List.filter_cons]
    by_cases hk : kv.1 = dest
    · rw [if_neg (by simp [hk]), ih, fileLookup_cons]
      by_cases hd : d = dest
      · simp [hd]
      · rw [if_neg hd, if_neg hd, if_neg (by rw [hk]; exact fun hh => hd hh.symm)]
    · rw [if_pos (by simp [hk]), fileLookup_cons, fileLookup_cons]
      by_cases hkd : kv.1 = d
      · rw [if_pos hkd, if_pos hkd, if_neg (by rw [← hkd]; exact hk)]
      · rw [if_neg hkd, if_neg hkd, ih]

theorem fileLookup_mapReplace_ne (f : ForwardsFile) (dest d : List Char)
    (v : List PersistedForward) (h : d ≠ dest) :
    fileLookup (f.map fun kv => if kv.1 = dest then (dest, v) else kv) d = fileLookup f d := by
  induction f with
  | nil => rfl
  | cons kv rest ih =>
    rw [List.map_cons, fileLookup_cons, fileLookup_cons]
    by_cases hk : kv.1 = dest
    · rw [if_pos hk, if_neg (show (dest, v).1 ≠ d from fun hh => h hh.symm),
        if_neg (show kv.1 ≠ d by rw [hk]; exact fun hh => h hh.symm), ih]
    · rw [if_neg hk]
      by_cases hkd : kv.1 = d
      · rw [if_pos hkd, if_pos hkd]
      · rw [if_neg hkd, if_neg hkd, ih]

theorem fileLookup_mapReplace_self (f : ForwardsFile) (dest : List Char)
    (v : List PersistedForward) (h : ∃ x ∈ f, x.1 = dest) :
    fileLookup (f.map fun kv => if kv.1 = dest then (dest, v) else kv) dest = some v := by
  induction f with
  | nil => exact absurd h (by simp)
  | cons kv rest ih =>
    rw [List.map_cons, fileLookup_cons]
    by_cases hk : kv.1 = dest
    · rw [if_pos hk, if_pos (show (dest, v).1 = dest from rfl)]
    · rw [if_neg hk, if_neg hk]
      rcases h with ⟨x, hx, hxd⟩
      rcases List.mem_cons.mp hx with hx1 | hx2
      · exact absurd (hx1 ▸ hxd) hk
      · exact ih ⟨x, hx2, hxd⟩

theorem fileLookup_append_ne (f : ForwardsFile) (dest d : List Char)
    (v : List PersistedForward) (h : d ≠ dest) :
    fileLookup (f ++ [(dest, v)]) d = fileLookup f d := by
  induction f with
  | nil =>
    rw [List.nil_append, fileLookup_cons,
      if_neg (show (dest, v).1 ≠ d from fun hh => h hh.symm)]
  | cons kv rest ih =>
    rw [List.cons_append, fileLookup_cons, fileLookup_cons, ih]

theorem fileLookup_append_self (f : ForwardsFile) (dest : List Char)
    (v : List PersistedForward) (h : fileLookup f dest = none) :
    fileLookup (f ++ [(dest, v)]) dest = some v := by
  induction f with
  | nil => rw [List.nil_append, fileLookup_cons, if_pos rfl]
  | cons kv rest ih =>
    rw [fileLookup_cons] at h
    rw [List.cons_append, fileLookup_cons]
    by_cases hk : kv.1 = dest
    · rw [if_pos hk] at h
      exact absurd h (by simp)
    · rw [if_neg hk] at h
      rw [if_neg hk, ih h]

theorem fileLookup_fileInsert_ne (f : ForwardsFile) (dest d : List Char)
    (v : List PersistedForward) (h : d ≠ dest) :
    fileLookup (fileInsert f dest v) d = fileLookup f d := by
  unfold fileInsert
  split
  · exact fileLookup_mapReplace_ne f dest d v h
  · exact fileLookup_append_ne f dest d v h

theorem fileLookup_fileInsert_self (f : ForwardsFile) (dest : List Char)
    (v : List PersistedForward) :
    fileLookup (fileInsert f dest v) dest = some v := by
  unfold fileInsert
  split
  · rename_i hfind
    refine fileLookup_mapReplace_self f dest v ?_
    rcases List.find?_isSome.mp hfind with ⟨x, hxmem, hpx⟩
    exact ⟨x, hxmem, of_decide_eq_true hpx⟩
  · rename_i hfind
    refine fileLookup_append_self f dest v ?_
    unfold fileLookup
    rw [List.find?_eq_none.mpr ?_]
    · rfl
    · intro x hx hpx
      exact hfind (by rw [List.find?_isSome]; exact ⟨x, hx, hpx⟩)

/-- Claim C9: saving keeps every other destination's stored entries
unchanged, removes the destination's key when the saved list is empty and
stores the list otherwise; loading yields the empty list when the file could
not be read or parsed, and the destination's stored list (empty when the key
is absent) otherwise. -/
theorem persistence_save_load (file : Option ForwardsFile) (dest : List Char)
    (forwards : List PersistedForward) :
    (∀ d, d ≠ dest →
      fileLookup (save_forwards file dest forwards) d = fileLookup (file.getD []) d) ∧
    (forwards ≠ [] → fileLookup (save_forwards file dest forwards) dest = some forwards) ∧
    (forwards = [] → fileLookup (save_forwards file dest forwards) dest = none) ∧
    (∀ d, load_forwards none d = []) ∧
    (∀ f d, load_forwards (some f) d = (fileLookup f d).getD []) := by
  refine ⟨?_, ?_, ?_, fun _ => rfl, fun _ _ => rfl⟩
  · intro d hd
    unfold save_forwards
    split
    · rw [fileLookup_fileRemove]
      simp [hd]
    · exact fileLookup_fileInsert_ne _ _ _ _ hd
  · intro hne
    unfold save_forwards
    split
    · exact absurd (by assumption) hne
    · exact fileLookup_fileInsert_self _ _ _
  · intro hnil
    subst hnil
    have hs : save_forwards file dest [] = fileRemove (file.getD []) dest := by
      unfold save_forwards
      rw [if_pos rfl]
    rw [hs, fileLookup_fileRemove, if_pos rfl]

/-- Witness for `persistence_save_load` at a concrete file, destination and
forward list. -/
theorem persistence_save_load_witness :
    fileLookup
        (save_forwards (some [("a".data, [⟨80, 8080⟩]), ("b".data, [⟨1, 2⟩])]) "a".data
          [⟨5432, 5432⟩])
        "b".data = some [⟨1, 2⟩] ∧
      fileLookup
        (save_forwards (some [("a".data, [⟨80, 8080⟩]), ("b".data, [⟨1, 2⟩])]) "a".data
          [⟨5432, 5432⟩])
        "a".data = some [⟨5432, 5432⟩] := by
  have h := persistence_save_load (some [("a".data, [⟨80, 8080⟩]), ("b".data, [⟨1, 2⟩])])
    "a".data [⟨5432, 5432⟩]
  exact ⟨by rw [h.1 "b".data (by decide)]; decide, by rw [h.2.1 (by decide)]⟩

/-! ### Parser helper lemmas -/

theorem parseLoop_eq_filterMap (proto : Protocol) (ls : List (List Char)) :
    ∀ acc, parseLoop proto ls acc = acc ++ ls.filterMap (parseLine proto) := by
  induction ls with
  | nil => intro acc; simp [parseLoop]
  | cons l rest ih =>
    intro acc
    unfold parseLoop
    rw [List.filterMap_cons]
    cases h : parseLine proto l with
    | none =>
      simp only [h]
      exact ih acc
    | some e =>
      simp only [h]
      rw [ih (acc ++ [e]), List.append_assoc, List.singleton_append]

theorem parse_proc_net_tcp_eq (content : List Char) (proto : Protocol) :
    parse_proc_net_tcp content proto =
      ((rustLines content).drop 1).filterMap (parseLine proto) := by
  unfold parse_proc_net_tcp
  rw [parseLoop_eq_filterMap, List.nil_append]

theorem length_filterMap_eq_countP {α β : Type} (f : α → Option β) (l : List α) :
    (l.filterMap f).length = l.countP fun a => (f a).isSome := by
  induction l with
  | nil => rfl
  | cons a rest ih =>
    rw [List.filterMap_cons, List.countP_cons]
    cases h : f a <;> simp [h, ih]

theorem parseDigitsBounded_le {dv : Char → Option Nat} {radix maxVal : Nat}
    {digits : List Char} {v : Nat} (h : parseDigitsBounded dv radix maxVal digits = some v) :
    v ≤ maxVal := by
  unfold parseDigitsBounded at h
  split at h
  · cases h
  · split at h
    · cases h
    · split at h
      · rename_i hcond
        cases h
        exact hcond
      · cases h

theorem parseUnsigned_le {dv : Char → Option Nat} {radix maxVal : Nat} {cs : List Char}
    {v : Nat} (h : parseUnsigned dv radix maxVal cs = some v) : v ≤ maxVal := by
  unfold parseUnsigned at h
  split at h
  · exact parseDigitsBounded_le h
  · cases h
  · exact parseDigitsBounded_le h

theorem parse_address_port_le {ap : List Char} {proto : Protocol} {x : List Char × Nat}
    (h : parse_address ap proto = some x) : x.2 ≤ U16_MAX := by
  unfold parse_address at h
  split at h
  · cases h
  · split at h
    · cases h
    · rename_i port hport
      cases proto with
      | tcp =>
        simp only at h
        split at h
        · cases h
        · split at h
          · cases h
          · cases h
            exact parseUnsigned_le hport
      | tcp6 =>
        simp only at h
        split at h
        · cases h
        · split at h
          · cases h
          · cases h
            exact parseUnsigned_le hport

theorem parseLine_port_le {proto : Protocol} {l : List Char} {e : TcpEntry}
    (h : parseLine proto l = some e) : e.port ≤ U16_MAX := by
  simp only [parseLine] at h
  split at h
  · cases h
  · split at h
    · cases h
    · split at h
      · cases h
      · rename_i pr hpr
        split at h
        · cases h
        · split at h
          · cases h
          · cases h
            exact parse_address_port_le hpr

theorem parseLine_fields_ge {proto : Protocol} {l : List Char} {e : TcpEntry}
    (h : parseLine proto l = some e) : 12 ≤ (splitWs l).length := by
  simp only [parseLine] at h
  split at h
  · cases h
  · rename_i hguard
    omega

theorem parseLine_isSome_eq (proto : Protocol) (l : List Char) :
    (parseLine proto l).isSome = lineValid proto l := by
  simp only [parseLine, lineValid]
  by_cases h1 : (splitWs l).length < 12
  · rw [if_pos h1, decide_eq_false (show ¬12 ≤ (splitWs l).length by omega)]
    simp only [Bool.false_and, Option.isSome_none]
  · rw [if_neg h1, decide_eq_true (show 12 ≤ (splitWs l).length by omega)]
    by_cases h2 : (splitWs l).getD 3 [] ≠ LISTEN_STATE
    · rw [if_pos h2, decide_eq_false h2]
      simp only [Bool.and_false, Bool.false_and, Option.isSome_none]
    · rw [if_neg h2, decide_eq_true (not_not.mp h2)]
      simp only [Bool.and_true, Bool.true_and]
      cases ha : parse_address ((splitWs l).getD 1 []) proto with
      | none =>
        simp only [ha, Option.isSome_none, Bool.false_and, Option.isSome]
      | some ap =>
        obtain ⟨addr, port⟩ := ap
        simp only [ha, Option.isSome_some, Bool.true_and]
        cases hu : parseUnsigned decVal? 10 U32_MAX ((splitWs l).getD 7 []) with
        | none =>
          simp only [hu, Option.isSome_none, Bool.false_and, Option.isSome]
        | some uid =>
          simp only [hu, Option.isSome_some, Bool.true_and]
          cases hi : parseUnsigned decVal? 10 U64_MAX ((splitWs l).getD 9 []) with
          | none => simp only [hi, Option.isSome_none, Option.isSome]
          | some inode => simp only [hi, Option.isSome_some, Option.isSome]

theorem parseLine_none_of_invalid {proto : Protocol} {l : List Char}
    (h : lineValid proto l = false) : parseLine proto l = none := by
  have := parseLine_isSome_eq proto l
  rw [h] at this
  exact Option.not_isSome_iff_eq_none.mp (by rw [this]; exact Bool.false_ne_true)

/-! ### ASCII and byte-structure lemmas -/

theorem splitBy_chars_subset (p : Char → Bool) :
    ∀ (cs g : List Char), g ∈ splitBy p cs → ∀ c ∈ g, c ∈ cs := by
  intro cs
  induction cs with
  | nil =>
    intro g hg c hc
    simp [splitBy] at hg
    subst hg
    cases hc
  | cons c0 rest ih =>
    intro g hg c hc
    unfold splitBy at hg
    cases hs : splitBy p rest with
    | nil =>
      simp only [hs] at hg
      simp at hg
      subst hg
      cases hc
    | cons grp gs =>
      simp only [hs] at hg
      by_cases hp : p c0
      · rw [if_pos hp] at hg
        rcases List.mem_cons.mp hg with rfl | hg2
        · cases hc
        · exact List.mem_cons_of_mem _ (ih g (by rw [hs]; exact hg2) c hc)
      · rw [if_neg hp] at hg
        rcases List.mem_cons.mp hg with rfl | hg2
        · rcases List.mem_cons.mp hc with rfl | hc2
          · exact List.mem_cons_self _ _
          · exact List.mem_cons_of_mem _
              (ih grp (by rw [hs]; exact List.mem_cons_self grp gs) c hc2)
        · exact List.mem_cons_of_mem _
            (ih g (by rw [hs]; exact List.mem_cons_of_mem _ hg2) c hc)

theorem rustLines_chars_subset (cs : List Char) :
    ∀ l ∈ rustLines cs, ∀ c ∈ l, c ∈ cs := by
  intro l hl c hc
  unfold rustLines at hl
  rcases List.mem_map.mp hl with ⟨l0, hl0, rfl⟩
  have hc0 : c ∈ l0 := by
    unfold dropEndCR at hc
    split at hc
    · exact (List.dropLast_sublist l0).subset hc
    · exact hc
  have hl02 : l0 ∈ splitBy (fun c => c = '\n') cs := by
    unfold dropLastEmpty at hl0
    split at hl0
    · exact (List.dropLast_sublist _).subset hl0
    · exact hl0
  exact splitBy_chars_subset _ cs l0 hl02 c hc0

theorem splitWs_chars_subset (l : List Char) :
    ∀ f ∈ splitWs l, ∀ c ∈ f, c ∈ l := by
  intro f hf
  unfold splitWs at hf
  exact splitBy_chars_subset isWs l f (List.mem_filter.mp hf).1

theorem getD_chars_subset (fields : List (List Char)) (i : Nat) (l : List Char)
    (hsub : ∀ f ∈ fields, ∀ c ∈ f, c ∈ l) : ∀ c ∈ fields.getD i [], c ∈ l := by
  intro c hc
  rw [List.getD_eq_getElem?_getD] at hc
  cases hg : fields[i]? with
  | none =>
    rw [hg] at hc
    cases hc
  | some f =>
    rw [hg] at hc
    exact hsub f (List.getElem?_mem hg) c hc

theorem splitOnceBy_chars_subset (p : Char → Bool) :
    ∀ (cs l r : List Char), splitOnceBy p cs = some (l, r) →
      (∀ c ∈ l, c ∈ cs) ∧ (∀ c ∈ r, c ∈ cs) := by
  intro cs
  induction cs with
  | nil =>
    intro l r h
    cases h
  | cons c0 rest ih =>
    intro l r h
    unfold splitOnceBy at h
    by_cases hp : p c0
    · rw [if_pos hp] at h
      injection h with h1
      injection h1 with hl hr
      subst hl
      subst hr
      refine ⟨?_, fun c hc => List.mem_cons_of_mem _ hc⟩
      intro c hc
      cases hc
    · rw [if_neg hp] at h
      cases hs : splitOnceBy p rest with
      | none =>
        simp [hs] at h
      | some pr =>
        obtain ⟨l0, r0⟩ := pr
        simp only [hs] at h
        injection h with h1
        injection h1 with hl hr
        subst hl
        subst hr
        obtain ⟨hsl, hsr⟩ := ih l0 r0 hs
        constructor
        · intro c hc
          rcases List.mem_cons.mp hc with rfl | hc2
          · exact List.mem_cons_self _ _
          · exact List.mem_cons_of_mem _ (hsl c hc2)
        · exact fun c hc => List.mem_cons_of_mem _ (hsr c hc)

theorem utf8Len_eq_length {cs : List Char} (h : ∀ c ∈ cs, c.utf8Size = 1) :
    utf8Len cs = cs.length := by
  induction cs with
  | nil => rfl
  | cons c rest ih =>
    unfold utf8Len at *
    rw [List.map_cons, List.sum_cons, h c (List.mem_cons_self _ _),
      ih fun c2 hc2 => h c2 (List.mem_cons_of_mem _ hc2)]
    rw [List.length_cons]
    omega

theorem byteDrop_ascii :
    ∀ (cs : List Char) (n : Nat), (∀ c ∈ cs, c.utf8Size = 1) → n ≤ cs.length →
      byteDrop cs n = .ok (cs.drop n) := by
  intro cs
  induction cs with
  | nil =>
    intro n h hn
    have hz : n = 0 := Nat.le_zero.mp hn
    subst hz
    rfl
  | cons c rest ih =>
    intro n h hn
    cases n with
    | zero => rfl
    | succ m =>
      unfold byteDrop
      rw [h c (List.mem_cons_self _ _), if_pos (by omega), Nat.add_sub_cancel,
        ih m (fun c2 hc2 => h c2 (List.mem_cons_of_mem _ hc2)) (by simpa using hn),
        List.drop_succ_cons]

theorem byteTake_ascii :
    ∀ (cs : List Char) (n : Nat), (∀ c ∈ cs, c.utf8Size = 1) → n ≤ cs.length →
      byteTake cs n = .ok (cs.take n) := by
  intro cs
  induction cs with
  | nil =>
    intro n h hn
    have hz : n = 0 := Nat.le_zero.mp hn
    subst hz
    rfl
  | cons c rest ih =>
    intro n h hn
    cases n with
    | zero => rfl
    | succ m =>
      unfold byteTake
      rw [h c (List.mem_cons_self _ _), if_pos (by omega), Nat.add_sub_cancel,
        ih m (fun c2 hc2 => h c2 (List.mem_cons_of_mem _ hc2)) (by simpa using hn),
        List.take_succ_cons]

theorem byteSlice_ascii (cs : List Char) (a b : Nat) (h : ∀ c ∈ cs, c.utf8Size = 1)
    (hab : a ≤ b) (hb : b ≤ cs.length) :
    byteSlice cs a b = .ok ((cs.drop a).take (b - a)) := by
  unfold byteSlice
  rw [byteDrop_ascii cs a h (by omega)]
  exact byteTake_ascii (cs.drop a) (b - a)
    (fun c hc => h c ((List.drop_sublist a cs).subset hc))
    (by rw [List.length_drop]; omega)

theorem parse_ipv6_addrB_ascii {hex : List Char} (h : ∀ c ∈ hex, c.utf8Size = 1) :
    parse_ipv6_addrB hex = .ok (parse_ipv6_addr hex) := by
  unfold parse_ipv6_addrB parse_ipv6_addr
  rw [utf8Len_eq_length h]
  by_cases hlen : hex.length ≠ 32
  · rw [if_pos hlen, if_pos hlen]
  · rw [if_neg hlen, if_neg hlen]
    have hl32 : hex.length = 32 := not_not.mp hlen
    have e0 : byteSlice hex 0 8 = .ok (hex.take 8) := by
      rw [byteSlice_ascii hex 0 8 h (by omega) (by omega), List.drop_zero]
    have e1 : byteSlice hex 8 16 = .ok ((hex.drop 8).take 8) :=
      byteSlice_ascii hex 8 16 h (by omega) (by omega)
    have e2 : byteSlice hex 16 24 = .ok ((hex.drop 16).take 8) :=
      byteSlice_ascii hex 16 24 h (by omega) (by omega)
    have e3 : byteSlice hex 24 32 = .ok ((hex.drop 24).take 8) :=
      byteSlice_ascii hex 24 32 h (by omega) (by omega)
    rw [e0, e1, e2, e3]
    cases hp0 : parseUnsigned hexVal? 16 U32_MAX (hex.take 8) <;>
      cases hp1 : parseUnsigned hexVal? 16 U32_MAX ((hex.drop 8).take 8) <;>
        cases hp2 : parseUnsigned hexVal? 16 U32_MAX ((hex.drop 16).take 8) <;>
          cases hp3 : parseUnsigned hexVal? 16 U32_MAX ((hex.drop 24).take 8) <;>
            simp [hp0, hp1, hp2, hp3]

theorem parse_addressB_ascii {ap : List Char} (h : ∀ c ∈ ap, c.utf8Size = 1)
    (proto : Protocol) : parse_addressB ap proto = .ok (parse_address ap proto) := by
  unfold parse_addressB parse_address
  cases hsp : splitOnceBy (fun c => c = ':') ap with
  | none => simp [hsp]
  | some pr =>
    obtain ⟨ah, ph⟩ := pr
    have hah : ∀ c ∈ ah, c.utf8Size = 1 := fun c hc =>
      h c ((splitOnceBy_chars_subset _ ap ah ph hsp).1 c hc)
    simp only [hsp]
    cases hport : parseUnsigned hexVal? 16 U16_MAX ph with
    | none => simp
    | some port =>
      simp only
      cases proto with
      | tcp =>
        rw [utf8Len_eq_length hah]
        by_cases hl : ah.length ≠ 8
        · rw [if_pos hl, if_pos hl]
        · rw [if_neg hl, if_neg hl]
          cases hv : parseUnsigned hexVal? 16 U32_MAX ah <;> simp [hv]
      | tcp6 =>
        rw [utf8Len_eq_length hah]
        by_cases hl : ah.length ≠ 32
        · rw [if_pos hl, if_pos hl]
        · rw [if_neg hl, if_neg hl]
          rw [parse_ipv6_addrB_ascii hah]
          cases hv : parse_ipv6_addr ah <;> simp [hv]

theorem parseLineB_ascii {l : List Char} (h : ∀ c ∈ l, c.utf8Size = 1) (proto : Protocol) :
    parseLineB proto l = .ok (parseLine proto l) := by
  simp only [parseLineB, parseLine]
  by_cases h1 : (splitWs l).length < 12
  · rw [if_pos h1, if_pos h1]
  · rw [if_neg h1, if_neg h1]
    by_cases h2 : (splitWs l).getD 3 [] ≠ LISTEN_STATE
    · rw [if_pos h2, if_pos h2]
    · rw [if_neg h2, if_neg h2]
      have hfield : ∀ c ∈ (splitWs l).getD 1 [], c.utf8Size = 1 := fun c hc =>
        h c (getD_chars_subset (splitWs l) 1 l (splitWs_chars_subset l) c hc)
      rw [parse_addressB_ascii hfield proto]
      cases ha : parse_address ((splitWs l).getD 1 []) proto with
      | none => simp
      | some ap =>
        obtain ⟨addr, port⟩ := ap
        cases hu : parseUnsigned decVal? 10 U32_MAX ((splitWs l).getD 7 []) <;>
          cases hi : parseUnsigned decVal? 10 U64_MAX ((splitWs l).getD 9 []) <;>
            simp [hu, hi]

theorem parseLoopB_ascii (proto : Protocol) :
    ∀ (ls : List (List Char)) (acc : List TcpEntry),
      (∀ l ∈ ls, ∀ c ∈ l, c.utf8Size = 1) →
      parseLoopB proto ls acc = .ok (parseLoop proto ls acc) := by
  intro ls
  induction ls with
  | nil => intro acc _; rfl
  | cons l rest ih =>
    intro acc h
    unfold parseLoopB parseLoop
    rw [parseLineB_ascii (h l (List.mem_cons_self _ _)) proto]
    cases hl : parseLine proto l with
    | none =>
      simp only [hl]
      exact ih acc fun l2 h2 => h l2 (List.mem_cons_of_mem _ h2)
    | some e =>
      simp only [hl]
      exact ih (acc ++ [e]) fun l2 h2 => h l2 (List.mem_cons_of_mem _ h2)

theorem parse_proc_net_tcpB_ascii {content : List Char}
    (h : ∀ c ∈ content, c.utf8Size = 1) (proto : Protocol) :
    parse_proc_net_tcpB content proto = .ok (parse_proc_net_tcp content proto) := by
  unfold parse_proc_net_tcpB parse_proc_net_tcp
  refine parseLoopB_ascii proto _ [] ?_
  intro l hl c hc
  exact h c (rustLines_chars_subset content l ((List.drop_sublist 1 _).subset hl) c hc)

/-! ### Byte-faithful line validity -/

theorem parseLineB_valid_eq (proto : Protocol) (l : List Char) :
    exceptSome (parseLineB proto l) = lineValidB proto l := by
  simp only [parseLineB, lineValidB]
  by_cases h1 : (splitWs l).length < 12
  · rw [if_pos h1, decide_eq_false (show ¬12 ≤ (splitWs l).length by omega)]
    simp only [Bool.false_and, exceptSome]
  · rw [if_neg h1, decide_eq_true (show 12 ≤ (splitWs l).length by omega)]
    by_cases h2 : (splitWs l).getD 3 [] ≠ LISTEN_STATE
    · rw [if_pos h2, decide_eq_false h2]
      simp only [Bool.and_false, Bool.false_and, exceptSome]
    · rw [if_neg h2, decide_eq_true (not_not.mp h2)]
      simp only [Bool.and_true, Bool.true_and]
      cases ha : parse_addressB ((splitWs l).getD 1 []) proto with
      | error e => simp [ha, exceptSome]
      | ok o =>
        cases o with
        | none => simp [ha, exceptSome]
        | some ap =>
          obtain ⟨addr, port⟩ := ap
          simp only [ha, exceptSome, Bool.true_and]
          cases hu : parseUnsigned decVal? 10 U32_MAX ((splitWs l).getD 7 []) with
          | none => simp [hu, exceptSome]
          | some uid =>
            simp only [hu, Option.isSome_some, Bool.true_and]
            cases hi : parseUnsigned decVal? 10 U64_MAX ((splitWs l).getD 9 []) with
            | none => simp [hi, exceptSome]
            | some inode => simp [hi, exceptSome]

theorem parseLoopB_ok_length (proto : Protocol) :
    ∀ (ls : List (List Char)) (acc res : List TcpEntry),
      parseLoopB proto ls acc = .ok res →
      res.length = acc.length + ls.countP (lineValidB proto) := by
  intro ls
  induction ls with
  | nil =>
    intro acc res h
    injection h with h1
    subst h1
    simp
  | cons l rest ih =>
    intro acc res h
    unfold parseLoopB at h
    rw [List.countP_cons]
    cases hl : parseLineB proto l with
    | error e =>
      rw [hl] at h
      cases h
    | ok o =>
      rw [hl] at h
      cases o with
      | none =>
        have hv : lineValidB proto l = false := by
          rw [← parseLineB_valid_eq, hl]
          rfl
        rw [ih acc res h, hv]
        simp
      | some e =>
        have hv : lineValidB proto l = true := by
          rw [← parseLineB_valid_eq, hl]
          rfl
        rw [ih (acc ++ [e]) res h, hv]
        simp only [List.length_append, List.length_cons, List.length_nil, if_true]
        omega

theorem parseLineB_fields_ge {proto : Protocol} {l : List Char} {e : TcpEntry}
    (h : parseLineB proto l = .ok (some e)) : 12 ≤ (splitWs l).length := by
  simp only [parseLineB] at h
  split at h
  · simp at h
  · rename_i hguard
    omega

/-! ### Claim C4 — record count of the socket-table parser (corrected) -/

/-- Counterexample to claim C4 as stated: `validThenPanicContent` has
exactly one non-header line satisfying all of the claim's conditions, yet
the parse produces no record at all — the following line's 32-byte tcp6
address hex has a multibyte character straddling byte offset 8, so the
byte-offset slice panics and aborts the whole parse. -/
theorem parser_abort_on_boundary :
    parse_proc_net_tcpB validThenPanicContent .tcp6 = .error () ∧
      ((rustLines validThenPanicContent).drop 1).countP (lineValidB .tcp6) = 1 := by
  exact ⟨by decide, by decide⟩

/-- Claim C4 (amended): whenever the parse completes without panicking —
it aborts when a tcp6 line's 32-byte address hex has a multibyte character
straddling byte offset 8, 16 or 24 — the parser produces exactly one record
per non-header line with at least 12 whitespace-separated fields, state
`0A`, a valid hex `addr:port` of the correct byte length, a valid decimal
UID and a valid decimal inode; every other line yields no record, and a
line in a state other than `0A` is skipped before the address is even
touched. -/
theorem parser_record_countB (content : List Char) (proto : Protocol)
    (res : List TcpEntry) (h : parse_proc_net_tcpB content proto = .ok res) :
    res.length = ((rustLines content).drop 1).countP (lineValidB proto) ∧
      (∀ l, lineValidB proto l = false → ∀ e, parseLineB proto l ≠ .ok (some e)) ∧
      (∀ l, (splitWs l).getD 3 [] ≠ LISTEN_STATE → parseLineB proto l = .ok none) := by
  refine ⟨?_, ?_, ?_⟩
  · have hlen := parseLoopB_ok_length proto ((rustLines content).drop 1) [] res h
    simpa using hlen
  · intro l hv e hcontra
    have heq := parseLineB_valid_eq proto l
    rw [hcontra, hv] at heq
    simp [exceptSome] at heq
  · intro l hstate
    simp only [parseLineB]
    by_cases h1 : (splitWs l).length < 12
    · rw [if_pos h1]
    · rw [if_neg h1, if_pos hstate]

/-- Witness for `parser_record_countB` at the skip fixture (the parse
completes there) and an invalid line. -/
theorem parser_record_countB_witness :
    ([⟨.tcp6, "::".data, 8080, 1000, 22222⟩] : List TcpEntry).length =
        ((rustLines skipDemoTcp6Content).drop 1).countP (lineValidB .tcp6) ∧
      parseLineB .tcp6 "garbage".data = .ok none := by
  have h := parser_record_countB skipDemoTcp6Content .tcp6
    [⟨.tcp6, "::".data, 8080, 1000, 22222⟩] (by decide)
  exact ⟨h.1, h.2.2 "garbage".data (by decide)⟩

/-! ### Claim C10 — totality of the socket-table parser (corrected) -/

/-- Counterexample to claim C10 as stated: the parse of `panicOnlyContent`
with tcp6 does not return a list — the LISTEN line's 32-byte address hex
has a multibyte character straddling byte offset 8, and the byte-offset
slice panics, aborting the parse. -/
theorem parser_panic_input :
    parse_proc_net_tcpB panicOnlyContent .tcp6 = .error () := by
  decide

/-- Claim C10 (amended): `parse_proc_net_tcp` always terminates but is not
panic-free — a tcp6 line whose 32-byte address hex has a multibyte
character straddling byte offset 8, 16 or 24 panics in the slice and aborts
the parse.  For every input of single-byte (ASCII) characters the parse
completes without panicking and equals the per-line `filterMap` semantics:
at most one record per non-header line, every hex, decimal, or
address-length failure skips the line, and any line that produces a record
passed the 12-field guard, which puts the accesses to fields 1, 3, 7 and 9
in bounds. -/
theorem parser_totalB (content : List Char) (proto : Protocol) :
    ((∀ c ∈ content, c.utf8Size = 1) →
      parse_proc_net_tcpB content proto = .ok (parse_proc_net_tcp content proto)) ∧
      parse_proc_net_tcp content proto =
        ((rustLines content).drop 1).filterMap (parseLine proto) ∧
      (parse_proc_net_tcp content proto).length ≤ ((rustLines content).drop 1).length ∧
      (∀ l e, parseLineB proto l = .ok (some e) →
        1 < (splitWs l).length ∧ 3 < (splitWs l).length ∧ 7 < (splitWs l).length ∧
          9 < (splitWs l).length) := by
  refine ⟨fun h => parse_proc_net_tcpB_ascii h proto, parse_proc_net_tcp_eq content proto,
    ?_, ?_⟩
  · rw [parse_proc_net_tcp_eq]
    exact List.length_filterMap_le _ _
  · intro l e h
    have := parseLineB_fields_ge h
    omega

/-- Witness for `parser_totalB`: the skip fixture is ASCII so its byte
parse completes and agrees with the char-level parse, and the loopback
fixture line produces a record, hence passed the field guard. -/
theorem parser_totalB_witness :
    parse_proc_net_tcpB skipDemoTcp6Content .tcp6 =
        .ok (parse_proc_net_tcp skipDemoTcp6Content .tcp6) ∧
      1 < (splitWs listenLine1337).length := by
  have h1 := parser_totalB skipDemoTcp6Content .tcp6
  have h2 := parser_totalB [] .tcp
  exact ⟨h1.1 (by decide),
    (h2.2.2.2 listenLine1337 ⟨.tcp, "127.0.0.1".data, 1337, 108, 12345⟩ (by decide)).1⟩

/-! ### Claim C5 — address decoding -/

theorem splitOnceBy_colon (ah ph : List Char) (h : ':' ∉ ah) :
    splitOnceBy (fun c => c = ':') (ah ++ ':' :: ph) = some (ah, ph) := by
  induction ah with
  | nil => simp [splitOnceBy]
  | cons c rest ih =>
    have hc : c ≠ ':' := fun hh => h (hh ▸ List.mem_cons_self c rest)
    have hrest : ':' ∉ rest := fun hh => h (List.mem_cons_of_mem c hh)
    rw [List.cons_append]
    unfold splitOnceBy
    rw [if_neg (by simpa using hc)]
    simp only [ih hrest]

/-- Claim C5: the little-endian address decodings — tcp4 `0100007F:0539`
gives `127.0.0.1:1337` (and the fixture LISTEN line with uid field 108 and
inode field 12345 gives the corresponding record), tcp6 all-zero hex with
port `1F90` gives `:::8080` — and a tcp6 address hex of length ≠ 32 (or a
tcp4 one of length ≠ 8) makes the line be skipped rather than failing the
parse. -/
theorem address_decoding (ah ph : List Char) :
    parse_address "0100007F:0539".data .tcp = some ("127.0.0.1".data, 1337) ∧
      parseLine .tcp listenLine1337 = some ⟨.tcp, "127.0.0.1".data, 1337, 108, 12345⟩ ∧
      parse_address "00000000000000000000000000000000:1F90".data .tcp6 =
        some ("::".data, 8080) ∧
      (':' ∉ ah → ah.length ≠ 32 → parse_address (ah ++ ':' :: ph) .tcp6 = none) ∧
      (':' ∉ ah → ah.length ≠ 8 → parse_address (ah ++ ':' :: ph) .tcp = none) ∧
      parse_proc_net_tcp skipDemoTcp6Content .tcp6 =
        [⟨.tcp6, "::".data, 8080, 1000, 22222⟩] := by
  refine ⟨by decide, by decide, by decide, ?_, ?_, by decide⟩
  · intro hmem hlen
    unfold parse_address
    simp only [splitOnceBy_colon ah ph hmem]
    cases hp : parseUnsigned hexVal? 16 U16_MAX ph with
    | none => simp only [hp]
    | some port =>
      simp only [hp]
      rw [if_pos hlen]
  · intro hmem hlen
    unfold parse_address
    simp only [splitOnceBy_colon ah ph hmem]
    cases hp : parseUnsigned hexVal? 16 U16_MAX ph with
    | none => simp only [hp]
    | some port =>
      simp only [hp]
      rw [if_pos hlen]

/-- Witness for `address_decoding`: a 30-nibble tcp6 hex and a 4-nibble
tcp4 hex are both rejected. -/
theorem address_decoding_witness :
    parse_address ("ABCD".data ++ ':' :: "1F90".data) .tcp6 = none ∧
      parse_address ("ABCD".data ++ ':' :: "1F90".data) .tcp = none := by
  have h := address_decoding "ABCD".data "1F90".data
  exact ⟨h.2.2.2.1 (by decide) (by decide), h.2.2.2.2.1 (by decide) (by decide)⟩

/-! ### Claim C6 — deduplication keeps the first entry per key -/

theorem mem_dedupLoop {es : List TcpEntry} :
    ∀ {seen : List (Nat × List Char)} {e : TcpEntry}, e ∈ dedupLoop es seen →
      entryKey e ∉ seen ∧
        es.find? (fun x => decide (entryKey x = entryKey e)) = some e := by
  induction es with
  | nil =>
    intro seen e he
    cases he
  | cons a rest ih =>
    intro seen e he
    unfold dedupLoop at he
    by_cases hk : entryKey a ∈ seen
    · rw [if_pos hk] at he
      obtain ⟨hnot, hfind⟩ := ih he
      have hne : entryKey a ≠ entryKey e := fun hh => hnot (hh ▸ hk)
      exact ⟨hnot, by rw [List.find?_cons_of_neg _ (by simpa using hne), hfind]⟩
    · rw [if_neg hk] at he
      rcases List.mem_cons.mp he with rfl | hmem
      · exact ⟨hk, by rw [List.find?_cons_of_pos _ (by simp)]⟩
      · obtain ⟨hnot, hfind⟩ := ih hmem
        have hne : entryKey a ≠ entryKey e :=
          fun hh => hnot (hh ▸ List.mem_cons_self _ _)
        refine ⟨fun hs => hnot (List.mem_cons_of_mem _ hs), ?_⟩
        rw [List.find?_cons_of_neg _ (by simpa using hne), hfind]

theorem dedupLoop_covers {es : List TcpEntry} :
    ∀ (seen : List (Nat × List Char)) {k : Nat × List Char},
      (∃ x ∈ es, entryKey x = k) →
        k ∈ seen ∨ ∃ x ∈ dedupLoop es seen, entryKey x = k := by
  induction es with
  | nil =>
    intro seen k h
    rcases h with ⟨x, hx, _⟩
    cases hx
  | cons a rest ih =>
    intro seen k h
    unfold dedupLoop
    by_cases hk : entryKey a ∈ seen
    · rw [if_pos hk]
      rcases h with ⟨x, hx, hxk⟩
      rcases List.mem_cons.mp hx with rfl | hmem
      · exact Or.inl (hxk ▸ hk)
      · exact ih seen ⟨x, hmem, hxk⟩
    · rw [if_neg hk]
      rcases h with ⟨x, hx, hxk⟩
      rcases List.mem_cons.mp hx with rfl | hmem
      · exact Or.inr ⟨x, List.mem_cons_self _ _, hxk⟩
      · rcases ih (entryKey a :: seen) ⟨x, hmem, hxk⟩ with hin | ⟨y, hy, hyk⟩
        · rcases List.mem_cons.mp hin with rfl | hseen
          · exact Or.inr ⟨a, List.mem_cons_self _ _, rfl⟩
          · exact Or.inl hseen
        · exact Or.inr ⟨y, List.mem_cons_of_mem _ hy, hyk⟩

/-- Claim C6: deduplication keeps the first entry per
`(port, address-after-stripping-the-mapped-form)` key (every kept entry is
the first of the input with its key, and every key present in the input
stays represented); the IPv4-mapped pair at port 1337 collapses to exactly
the tcp entry, while the wildcard pair at port 8080 keeps both entries. -/
theorem dedup_keeps_first (es : List TcpEntry) (e : TcpEntry) (k : Nat × List Char) :
    (e ∈ dedup_entries es →
        es.find? (fun x => decide (entryKey x = entryKey e)) = some e) ∧
      ((∃ x ∈ es, entryKey x = k) → ∃ x ∈ dedup_entries es, entryKey x = k) ∧
      dedup_entries dedupPairMapped = [⟨.tcp, "127.0.0.1".data, 1337, 108, 111⟩] ∧
      (dedup_entries dedupPairWild).length = 2 := by
  refine ⟨fun he => (mem_dedupLoop he).2, ?_, by decide, by decide⟩
  intro h
  rcases dedupLoop_covers [] h with hin | hex
  · cases hin
  · exact hex

/-- Witness for `dedup_keeps_first` at the two concrete pairs. -/
theorem dedup_keeps_first_witness :
    dedupPairMapped.find?
        (fun x =>
          decide (entryKey x = entryKey ⟨.tcp, "127.0.0.1".data, 1337, 108, 111⟩)) =
        some ⟨.tcp, "127.0.0.1".data, 1337, 108, 111⟩ ∧
      ∃ x ∈ dedup_entries dedupPairWild, entryKey x = (8080, "::".data) := by
  have h1 := dedup_keeps_first dedupPairMapped ⟨.tcp, "127.0.0.1".data, 1337, 108, 111⟩
    (8080, "::".data)
  have h2 := dedup_keeps_first dedupPairWild ⟨.tcp, "127.0.0.1".data, 1337, 108, 111⟩
    (8080, "::".data)
  exact ⟨h1.1 (by decide),
    h2.2.1 ⟨⟨.tcp6, "::".data, 8080, 1000, 222⟩, by decide, by decide⟩⟩

/-! ### Claim C7 — record port range (corrected) -/

/-- Counterexample to claim C7 as stated: a LISTEN line whose port hex is
`0000` yields a record with port 0, so records are not confined to
`1..=65535`. -/
theorem port_zero_record :
    (parse_proc_net_tcp portZeroContent .tcp).map TcpEntry.port = [0] := by
  decide

/-- Claim C7 (amended): every record produced by the parser has a port of at
most 65535 (the 16-bit bound enforced by the port-hex parse); the lower
bound 1 does not hold, as a line with port hex `0000` produces a port-0
record. -/
theorem record_port_le (content : List Char) (proto : Protocol) :
    ∀ e ∈ parse_proc_net_tcp content proto, e.port ≤ 65535 := by
  intro e he
  rw [parse_proc_net_tcp_eq] at he
  rcases List.mem_filterMap.mp he with ⟨l, _, hl⟩
  exact parseLine_port_le hl

/-- Witness for `record_port_le` at the port-zero fixture. -/
theorem record_port_le_witness :
    (⟨.tcp, "127.0.0.1".data, 0, 108, 12345⟩ : TcpEntry).port ≤ 65535 := by
  refine record_port_le portZeroContent .tcp _ ?_
  decide

/-! ### Claim C1 — reconcile step -/

theorem genCmd_port_target {current : List Nat} {host : List Char}
    {pe : Nat × ForwardEntry} {c : ForwardCommand} (h : genCmd current host pe = some c) :
    cmdRemotePort c = pe.1 ∧ ∃ s, cmdStatusTarget c = some (pe.1, s) := by
  obtain ⟨q, e⟩ := pe
  unfold genCmd at h
  cases hs : e.status with
  | active =>
    simp only [hs] at h
    by_cases hq : q ∈ current
    · rw [if_pos hq] at h
      cases h
    · rw [if_neg hq] at h
      cases h
      exact ⟨rfl, .paused, rfl⟩
  | starting =>
    simp only [hs] at h
    by_cases hq : q ∈ current
    · rw [if_pos hq] at h
      cases h
    · rw [if_neg hq] at h
      cases h
      exact ⟨rfl, .paused, rfl⟩
  | paused =>
    simp only [hs] at h
    by_cases hq : q ∈ current
    · rw [if_pos hq] at h
      cases h
      exact ⟨rfl, .starting, rfl⟩
    · rw [if_neg hq] at h
      cases h

theorem pause_mem_iff {forwards : List (Nat × ForwardEntry)} {current : List Nat}
    {host : List Char} {p : Nat} :
    ForwardCommand.pause p ∈ reconcileCommands forwards current host ↔
      ∃ e, (p, e) ∈ forwards ∧ (e.status = .active ∨ e.status = .starting) ∧
        p ∉ current := by
  unfold reconcileCommands
  rw [List.mem_filterMap]
  constructor
  · rintro ⟨⟨q, e⟩, hmem, hgen⟩
    unfold genCmd at hgen
    cases hs : e.status with
    | active =>
      simp only [hs] at hgen
      by_cases hq : q ∈ current
      · rw [if_pos hq] at hgen
        cases hgen
      · rw [if_neg hq] at hgen
        have hqp : q = p := by
          injection hgen with h1
          injection h1
        subst hqp
        exact ⟨e, hmem, Or.inl hs, hq⟩
    | starting =>
      simp only [hs] at hgen
      by_cases hq : q ∈ current
      · rw [if_pos hq] at hgen
        cases hgen
      · rw [if_neg hq] at hgen
        have hqp : q = p := by
          injection hgen with h1
          injection h1
        subst hqp
        exact ⟨e, hmem, Or.inr hs, hq⟩
    | paused =>
      simp only [hs] at hgen
      by_cases hq : q ∈ current
      · rw [if_pos hq] at hgen
        injection hgen with h1
        cases h1
      · rw [if_neg hq] at hgen
        cases hgen
  · rintro ⟨e, hmem, hstat, hcur⟩
    refine ⟨(p, e), hmem, ?_⟩
    unfold genCmd
    rcases hstat with hs | hs <;> simp only [hs] <;> rw [if_neg hcur]

theorem reactivate_mem_iff {forwards : List (Nat × ForwardEntry)} {current : List Nat}
    {host : List Char} {p lp : Nat} :
    ForwardCommand.reactivate p lp host ∈ reconcileCommands forwards current host ↔
      ∃ e, (p, e) ∈ forwards ∧ e.status = .paused ∧ e.local_port = lp ∧ p ∈ current := by
  unfold reconcileCommands
  rw [List.mem_filterMap]
  constructor
  · rintro ⟨⟨q, e⟩, hmem, hgen⟩
    unfold genCmd at hgen
    cases hs : e.status with
    | active =>
      simp only [hs] at hgen
      by_cases hq : q ∈ current
      · rw [if_pos hq] at hgen
        cases hgen
      · rw [if_neg hq] at hgen
        injection hgen with h1
        cases h1
    | starting =>
      simp only [hs] at hgen
      by_cases hq : q ∈ current
      · rw [if_pos hq] at hgen
        cases hgen
      · rw [if_neg hq] at hgen
        injection hgen with h1
        cases h1
    | paused =>
      simp only [hs] at hgen
      by_cases hq : q ∈ current
      · rw [if_pos hq] at hgen
        injection hgen with h1
        injection h1 with hq1 hq2 hq3
        subst hq1
        exact ⟨e, hmem, hs, hq2, hq⟩
      · rw [if_neg hq] at hgen
        cases hgen
  · rintro ⟨e, hmem, hs, hlp, hcur⟩
    refine ⟨(p, e), hmem, ?_⟩
    unfold genCmd
    simp only [hs]
    rw [if_pos hcur, hlp]

theorem reconcile_targets_sublist (forwards : List (Nat × ForwardEntry)) (current : List Nat)
    (host : List Char) :
    List.Sublist
      ((reconcileCommands forwards current host).filterMap
        (fun c => (cmdStatusTarget c).map Prod.fst))
      (forwards.map Prod.fst) := by
  induction forwards with
  | nil => simp [reconcileCommands]
  | cons pe rest ih =>
    unfold reconcileCommands at *
    rw [List.filterMap_cons, List.map_cons]
    cases hg : genCmd current host pe with
    | none =>
      simp only [hg]
      exact List.Sublist.cons _ ih
    | some c =>
      simp only [hg]
      rw [List.filterMap_cons]
      obtain ⟨_, s, hts⟩ := genCmd_port_target hg
      rw [hts]
      exact List.Sublist.cons₂ _ ih

theorem mem_setStatus_ne {f : List (Nat × ForwardEntry)} {p : Nat} {s : ForwardStatus}
    {q : Nat} {e : ForwardEntry} (h : q ≠ p) :
    ((q, e) ∈ setStatus f p s) ↔ (q, e) ∈ f := by
  unfold setStatus
  rw [List.mem_map]
  constructor
  · rintro ⟨⟨q2, e2⟩, hmem, heq⟩
    by_cases hq2 : q2 = p
    · rw [if_pos (show (q2, e2).1 = p from hq2)] at heq
      cases heq
      exact absurd hq2 h
    · rw [if_neg (show ¬(q2, e2).1 = p from hq2)] at heq
      cases heq
      exact hmem
  · intro hmem
    exact ⟨(q, e), hmem, by rw [if_neg (show ¬(q, e).1 = p from h)]⟩

theorem status_mem_setStatus_self {f : List (Nat × ForwardEntry)} {p : Nat}
    {s : ForwardStatus} {e2 : ForwardEntry} (h : (p, e2) ∈ setStatus f p s) :
    e2.status = s := by
  unfold setStatus at h
  rw [List.mem_map] at h
  obtain ⟨⟨q, e⟩, _, heq⟩ := h
  by_cases hq : (q, e).1 = p
  · rw [if_pos hq] at heq
    cases heq
    rfl
  · rw [if_neg hq] at heq
    cases heq
    exact absurd rfl hq

theorem mem_applyStatus_untargeted {cmds : List ForwardCommand} :
    ∀ {f : List (Nat × ForwardEntry)} {p : Nat} {e : ForwardEntry},
      (∀ c ∈ cmds, ∀ q s, cmdStatusTarget c = some (q, s) → q ≠ p) →
      (((p, e) ∈ applyStatusUpdates f cmds) ↔ (p, e) ∈ f) := by
  induction cmds with
  | nil => exact fun _ => Iff.rfl
  | cons c cs ih =>
    intro f p e h
    have hstep :
        ((p, e) ∈
          (match c with
          | ForwardCommand.pause q => setStatus f q .paused
          | ForwardCommand.reactivate q _ _ => setStatus f q .starting
          | _ => f)) ↔ (p, e) ∈ f := by
      cases c with
      | pause q =>
        exact mem_setStatus_ne
          (Ne.symm (h _ (List.mem_cons_self _ _) q .paused rfl))
      | reactivate q lp h0 =>
        exact mem_setStatus_ne
          (Ne.symm (h _ (List.mem_cons_self _ _) q .starting rfl))
      | start _ _ _ => exact Iff.rfl
      | stop _ => exact Iff.rfl
    exact (ih fun c2 hc2 => h c2 (List.mem_cons_of_mem _ hc2)).trans hstep

theorem status_after_reconcile {forwards : List (Nat × ForwardEntry)} {current : List Nat}
    {host : List Char} (hnd : (forwards.map Prod.fst).Nodup) {c : ForwardCommand}
    {p : Nat} {s : ForwardStatus} (hc : c ∈ reconcileCommands forwards current host)
    (ht : cmdStatusTarget c = some (p, s)) :
    ∀ e2, (p, e2) ∈ applyStatusUpdates forwards (reconcileCommands forwards current host) →
      e2.status = s := by
  intro e2 he2
  obtain ⟨l1, l2, hsplit⟩ := List.append_of_mem hc
  have hTnd : ((reconcileCommands forwards current host).filterMap
      (fun c => (cmdStatusTarget c).map Prod.fst)).Nodup :=
    (reconcile_targets_sublist forwards current host).nodup hnd
  rw [hsplit] at hTnd he2
  rw [List.filterMap_append, List.filterMap_cons, ht] at hTnd
  have hp_l2 : p ∉ l2.filterMap (fun c => (cmdStatusTarget c).map Prod.fst) :=
    (List.nodup_cons.mp (List.nodup_append.mp hTnd).2.1).1
  have hl2 : ∀ c2 ∈ l2, ∀ q s2, cmdStatusTarget c2 = some (q, s2) → q ≠ p := by
    intro c2 hc2 q s2 ht2 hqp
    subst hqp
    exact hp_l2 (List.mem_filterMap.mpr ⟨c2, hc2, by rw [ht2]; rfl⟩)
  unfold applyStatusUpdates at he2
  rw [List.foldl_append, List.foldl_cons] at he2
  have hmem := (mem_applyStatus_untargeted hl2).mp he2
  cases c with
  | pause q =>
    injection ht with h1
    cases h1
    exact status_mem_setStatus_self hmem
  | reactivate q lp h0 =>
    injection ht with h1
    cases h1
    exact status_mem_setStatus_self hmem
  | start _ _ _ => cases ht
  | stop _ => cases ht

theorem assoc_nodup_unique {l : List (Nat × ForwardEntry)} (h : (l.map Prod.fst).Nodup)
    {p : Nat} {a b : ForwardEntry} (ha : (p, a) ∈ l) (hb : (p, b) ∈ l) : a = b := by
  induction l with
  | nil => cases ha
  | cons x rest ih =>
    rw [List.map_cons, List.nodup_cons] at h
    rcases List.mem_cons.mp ha with rfl | ha2
    · rcases List.mem_cons.mp hb with heq | hb2
      · injection heq with h1 h2
        exact h2.symm
      · exact absurd (List.mem_map.mpr ⟨(p, b), hb2, rfl⟩) h.1
    · rcases List.mem_cons.mp hb with heq | hb2
      · subst heq
        exact absurd (List.mem_map.mpr ⟨(p, a), ha2, rfl⟩) h.1
      · exact ih h.2 ha2 hb2

/-- Claim C1: one reconcile step emits `Pause p` iff the entry for `p` is
active or starting and `p` left the scan; it emits
`Reactivate p local_port remote_host` iff the entry for `p` is paused and
`p` is in the scan; entries that are paused-and-absent or
active/starting-and-present contribute no command; and after the step every
`Pause` target is paused and every `Reactivate` target is starting. -/
theorem reconcile_step (forwards : List (Nat × ForwardEntry)) (current : List Nat)
    (remote_host : List Char) (hnd : (forwards.map Prod.fst).Nodup) :
    (∀ p, ForwardCommand.pause p ∈ (reconcile_forwards forwards current remote_host).1 ↔
      ∃ e, (p, e) ∈ forwards ∧ (e.status = .active ∨ e.status = .starting) ∧
        p ∉ current) ∧
    (∀ p lp,
      ForwardCommand.reactivate p lp remote_host ∈
          (reconcile_forwards forwards current remote_host).1 ↔
        ∃ e, (p, e) ∈ forwards ∧ e.status = .paused ∧ e.local_port = lp ∧ p ∈ current) ∧
    (∀ p e, (p, e) ∈ forwards →
      ((e.status = .paused ∧ p ∉ current) ∨
        ((e.status = .active ∨ e.status = .starting) ∧ p ∈ current)) →
      ∀ c ∈ (reconcile_forwards forwards current remote_host).1, cmdRemotePort c ≠ p) ∧
    (∀ p, ForwardCommand.pause p ∈ (reconcile_forwards forwards current remote_host).1 →
      ∀ e2, (p, e2) ∈ (reconcile_forwards forwards current remote_host).2 →
        e2.status = .paused) ∧
    (∀ p lp,
      ForwardCommand.reactivate p lp remote_host ∈
          (reconcile_forwards forwards current remote_host).1 →
        ∀ e2, (p, e2) ∈ (reconcile_forwards forwards current remote_host).2 →
          e2.status = .starting) := by
  refine ⟨fun p => pause_mem_iff, fun p lp => reactivate_mem_iff, ?_, ?_, ?_⟩
  · intro p e hmem hcase c hc hport
    rcases List.mem_filterMap.mp hc with ⟨⟨q, e2⟩, hmem2, hgen⟩
    obtain ⟨hcp, _⟩ := genCmd_port_target hgen
    have hqp : q = p := hcp.symm.trans hport
    subst hqp
    have he : e2 = e := assoc_nodup_unique hnd hmem2 hmem
    subst he
    unfold genCmd at hgen
    rcases hcase with ⟨hs, hcur⟩ | ⟨hs, hcur⟩
    · simp only [hs] at hgen
      rw [if_neg hcur] at hgen
      cases hgen
    · rcases hs with hs | hs <;> simp only [hs] at hgen <;> rw [if_pos hcur] at hgen <;>
        cases hgen
  · intro p hp e2 he2
    exact status_after_reconcile hnd hp rfl e2 he2
  · intro p lp hp e2 he2
    exact status_after_reconcile hnd hp rfl e2 he2

/-- Witness for `reconcile_step`: a two-entry forwards map where port 5432
vanished from the scan and port 8080 returned. -/
theorem reconcile_step_witness :
    (ForwardCommand.pause 5432 ∈
      (reconcile_forwards [(5432, ⟨5432, .active, 0⟩), (8080, ⟨8081, .paused, 2⟩)] [8080]
        "remote".data).1) ∧
    (∀ e2,
      (5432, e2) ∈
          (reconcile_forwards [(5432, ⟨5432, .active, 0⟩), (8080, ⟨8081, .paused, 2⟩)] [8080]
            "remote".data).2 →
        e2.status = .paused) := by
  have h := reconcile_step [(5432, ⟨5432, .active, 0⟩), (8080, ⟨8081, .paused, 2⟩)] [8080]
    "remote".data (by decide)
  have hp : ForwardCommand.pause 5432 ∈
      (reconcile_forwards [(5432, ⟨5432, .active, 0⟩), (8080, ⟨8081, .paused, 2⟩)] [8080]
        "remote".data).1 :=
    (h.1 5432).mpr ⟨⟨5432, .active, 0⟩, by decide, Or.inl rfl, by decide⟩
  exact ⟨hp, fun e2 he2 => h.2.2.2.1 5432 hp e2 he2⟩

/-! ### Claim C2 — sortedness and key-distinctness of the ports list -/

theorem then_ne_gt {o1 o2 : Ordering} :
    (o1.then o2 ≠ .gt) ↔ (o1 = .lt ∨ (o1 = .eq ∧ o2 ≠ .gt)) := by
  cases o1 <;> cases o2 <;> decide

theorem compare_ne_gt {x y : Nat} : (compare x y ≠ .gt) ↔ x ≤ y := by
  rw [Ne, Nat.compare_eq_gt]
  omega

theorem portLe_iff {a b : ListeningPort} :
    portLe a b ↔
      (a.port < b.port ∨
        (a.port = b.port ∧
          (pidOf a < pidOf b ∨
            (pidOf a = pidOf b ∧ protoOrd a.protocol ≤ protoOrd b.protocol)))) := by
  unfold portLe cmpPorts
  rw [then_ne_gt, then_ne_gt, Nat.compare_eq_lt, Nat.compare_eq_eq, Nat.compare_eq_lt,
    Nat.compare_eq_eq, compare_ne_gt]

theorem portLe_trans : ∀ a b c : ListeningPort, portLe a b → portLe b c → portLe a c := by
  intro a b c hab hbc
  rw [portLe_iff] at *
  omega

theorem portLe_total : ∀ a b : ListeningPort, portLe a b ∨ portLe b a := by
  intro a b
  rw [portLe_iff, portLe_iff]
  omega

instance : IsTrans ListeningPort portLe := ⟨portLe_trans⟩

instance : IsTotal ListeningPort portLe := ⟨portLe_total⟩

theorem dedupLoop_pairwise (es : List TcpEntry) :
    ∀ seen, (dedupLoop es seen).Pairwise fun a b => entryKey a ≠ entryKey b := by
  induction es with
  | nil => exact fun _ => List.Pairwise.nil
  | cons a rest ih =>
    intro seen
    unfold dedupLoop
    by_cases hk : entryKey a ∈ seen
    · rw [if_pos hk]
      exact ih seen
    · rw [if_neg hk]
      refine List.Pairwise.cons ?_ (ih _)
      intro e he hcontra
      exact (mem_dedupLoop he).1 (hcontra ▸ List.mem_cons_self _ _)

/-- Claim C2: after the agent's deduplication and the client's sort on scan
receipt, the ports list is sorted by the key (port ascending, pid-or-0
ascending, tcp before tcp6), and no two of its entries agree on
`(port, address)` after IPv4-mapped normalization. -/
theorem scan_ports_sorted_dedup (entries : List TcpEntry) (attr : Nat → Option ProcessInfo) :
    (sortPorts ((dedup_entries entries).map (toListeningPort attr))).Pairwise portLe ∧
      (sortPorts ((dedup_entries entries).map (toListeningPort attr))).Pairwise
        fun a b => portKey a ≠ portKey b := by
  constructor
  · exact List.sorted_insertionSort portLe _
  · have hperm : List.Perm (sortPorts ((dedup_entries entries).map (toListeningPort attr)))
        ((dedup_entries entries).map (toListeningPort attr)) :=
      List.perm_insertionSort portLe _
    refine (List.Perm.pairwise_iff (fun h hk => h hk.symm) hperm).mpr ?_
    rw [List.pairwise_map]
    exact (dedupLoop_pairwise entries []).imp fun h => h

/-! ### Claim C8 — ssh config block resolution -/

theorem eqIgnoreCase_unique {k a b : List Char} (ha : eqIgnoreCase k a = true)
    (hne : a.map asciiLow ≠ b.map asciiLow) : eqIgnoreCase k b = false := by
  unfold eqIgnoreCase at *
  rw [beq_iff_eq] at ha
  rw [beq_eq_false_iff_ne, ha]
  exact hne

theorem pjFirst_cons (k v : List Char) (ds : List (List Char × List Char)) :
    pjFirst ((k, v) :: ds) =
      if eqIgnoreCase k "ProxyJump".data then some v else pjFirst ds := by
  unfold pjFirst
  rw [List.find?_cons]
  by_cases h : eqIgnoreCase k "ProxyJump".data = true
  · rw [if_pos h]
    simp [h]
  · rw [if_neg h]
    simp [eq_false_of_ne_true h]

theorem mergeSpec_nil (cfg : SshHostConfig) (seenPJ : Bool) (home : List Char) :
    mergeSpec cfg seenPJ home [] = cfg := by
  obtain ⟨ch, cp, cu, cpj, cif⟩ := cfg
  simp [mergeSpec, resolveDirs, pjResolve, pjFirst, emptyHostConfig]

theorem mergeSpec_directive (home k v : List Char) (seenPJ : Bool) (cfg : SshHostConfig)
    (ds : List (List Char × List Char)) :
    mergeSpec (applyDirective home k v seenPJ cfg).2 (applyDirective home k v seenPJ cfg).1
        home ds =
      mergeSpec cfg seenPJ home ((k, v) :: ds) := by
  obtain ⟨ch, cp, cu, cpj, cif⟩ := cfg
  by_cases hK1 : eqIgnoreCase k "ProxyJump".data = true
  · have hres : resolveDirs home ((k, v) :: ds) =
        { resolveDirs home ds with
          proxy_jump := if eqIgnoreCase v "none".data then none else some v } := by
      simp only [resolveDirs, hK1, if_true]
    have hpj : ∀ x, pjResolve x ((k, v) :: ds) =
        if eqIgnoreCase v "none".data then x else some v := by
      intro x
      simp only [pjResolve, pjFirst_cons, hK1, if_true]
    cases seenPJ with
    | false =>
      have hc1 : (eqIgnoreCase k "ProxyJump".data && !false) = true := by rw [hK1]; rfl
      unfold applyDirective
      rw [if_pos hc1]
      by_cases hv : eqIgnoreCase v "none".data = true
      · rw [if_pos hv]
        simp [mergeSpec, hres, hpj, hv]
      · rw [if_neg hv]
        simp [mergeSpec, hres, hpj, eq_false_of_ne_true hv]
    | true =>
      have hK2 : eqIgnoreCase k "HostName".data = false :=
        eqIgnoreCase_unique hK1 (by decide)
      have hK3 : eqIgnoreCase k "User".data = false :=
        eqIgnoreCase_unique hK1 (by decide)
      have hK4 : eqIgnoreCase k "Port".data = false :=
        eqIgnoreCase_unique hK1 (by decide)
      have hK5 : eqIgnoreCase k "IdentityFile".data = false :=
        eqIgnoreCase_unique hK1 (by decide)
      unfold applyDirective
      rw [if_neg (by rw [hK1]; exact Bool.false_ne_true ∘ id), if_neg (by rw [hK2]; simp),
        if_neg (by rw [hK3]; simp), if_neg (by rw [hK4]; simp), if_neg (by rw [hK5]; simp)]
      simp [mergeSpec, hres]
  · have hK1f : eqIgnoreCase k "ProxyJump".data = false := eq_false_of_ne_true hK1
    have hpj : ∀ x, pjResolve x ((k, v) :: ds) = pjResolve x ds := by
      intro x
      simp [pjResolve, pjFirst_cons, hK1f]
    by_cases hK2 : eqIgnoreCase k "HostName".data = true
    · have hK3 : eqIgnoreCase k "User".data = false := eqIgnoreCase_unique hK2 (by decide)
      have hK4 : eqIgnoreCase k "Port".data = false := eqIgnoreCase_unique hK2 (by decide)
      have hK5 : eqIgnoreCase k "IdentityFile".data = false :=
        eqIgnoreCase_unique hK2 (by decide)
      have hres : resolveDirs home ((k, v) :: ds) =
          { resolveDirs home ds with hostname := some v } := by
        simp [resolveDirs, hK1f, hK2]
      unfold applyDirective
      rw [if_neg (by rw [hK1f]; simp)]
      cases ch with
      | none =>
        rw [if_pos (by rw [hK2]; rfl)]
        simp [mergeSpec, hres, hpj]
      | some h0 =>
        rw [if_neg (by rw [hK2]; simp), if_neg (by rw [hK3]; simp),
          if_neg (by rw [hK4]; simp), if_neg (by rw [hK5]; simp)]
        simp [mergeSpec, hres, hpj]
    · have hK2f : eqIgnoreCase k "HostName".data = false := eq_false_of_ne_true hK2
      by_cases hK3 : eqIgnoreCase k "User".data = true
      · have hK4 : eqIgnoreCase k "Port".data = false := eqIgnoreCase_unique hK3 (by decide)
        have hK5 : eqIgnoreCase k "IdentityFile".data = false :=
          eqIgnoreCase_unique hK3 (by decide)
        have hres : resolveDirs home ((k, v) :: ds) =
            { resolveDirs home ds with user := some v } := by
          simp [resolveDirs, hK1f, hK2f, hK3]
        unfold applyDirective
        rw [if_neg (by rw [hK1f]; simp), if_neg (by rw [hK2f]; simp)]
        cases cu with
        | none =>
          rw [if_pos (by rw [hK3]; rfl)]
          simp [mergeSpec, hres, hpj]
        | some u0 =>
          rw [if_neg (by rw [hK3]; simp), if_neg (by rw [hK4]; simp),
            if_neg (by rw [hK5]; simp)]
          simp [mergeSpec, hres, hpj]
      · have hK3f : eqIgnoreCase k "User".data = false := eq_false_of_ne_true hK3
        by_cases hK4 : eqIgnoreCase k "Port".data = true
        · have hK5 : eqIgnoreCase k "IdentityFile".data = false :=
            eqIgnoreCase_unique hK4 (by decide)
          have hres : resolveDirs home ((k, v) :: ds) =
              { resolveDirs home ds with
                port := (parseUnsigned decVal? 10 U16_MAX v).or
                  (resolveDirs home ds).port } := by
            simp [resolveDirs, hK1f, hK2f, hK3f, hK4]
          unfold applyDirective
          rw [if_neg (by rw [hK1f]; simp), if_neg (by rw [hK2f]; simp),
            if_neg (by rw [hK3f]; simp)]
          cases cp with
          | none =>
            rw [if_pos (by rw [hK4]; rfl)]
            simp [mergeSpec, hres, hpj]
          | some p0 =>
            rw [if_neg (by rw [hK4]; simp), if_neg (by rw [hK5]; simp)]
            simp [mergeSpec, hres, hpj]
        · have hK4f : eqIgnoreCase k "Port".data = false := eq_false_of_ne_true hK4
          by_cases hK5 : eqIgnoreCase k "IdentityFile".data = true
          · have hres : resolveDirs home ((k, v) :: ds) =
                { resolveDirs home ds with
                  identity_files :=
                    expandHome home v :: (resolveDirs home ds).identity_files } := by
              simp [resolveDirs, hK1f, hK2f, hK3f, hK4f, hK5]
            unfold applyDirective
            rw [if_neg (by rw [hK1f]; simp), if_neg (by rw [hK2f]; simp),
              if_neg (by rw [hK3f]; simp), if_neg (by rw [hK4f]; simp),
              if_pos hK5]
            simp [mergeSpec, hres, hpj]
          · have hK5f : eqIgnoreCase k "IdentityFile".data = false := eq_false_of_ne_true hK5
            have hres : resolveDirs home ((k, v) :: ds) = resolveDirs home ds := by
              simp [resolveDirs, hK1f, hK2f, hK3f, hK4f, hK5f]
            unfold applyDirective
            rw [if_neg (by rw [hK1f]; simp), if_neg (by rw [hK2f]; simp),
              if_neg (by rw [hK3f]; simp), if_neg (by rw [hK4f]; simp),
              if_neg (by rw [hK5f]; simp)]
            simp [mergeSpec, hres, hpj]

theorem processLines_eq (home host : List Char) :
    ∀ (lines : List (List Char)) (inBlock seenPJ : Bool) (cfg : SshHostConfig),
      processLines home host lines inBlock seenPJ cfg =
        mergeSpec cfg seenPJ home (matchingDirs host lines inBlock) := by
  intro lines
  induction lines with
  | nil =>
    intro inBlock seenPJ cfg
    rw [show matchingDirs host [] inBlock = [] from rfl, mergeSpec_nil]
    rfl
  | cons line rest ih =>
    intro inBlock seenPJ cfg
    unfold processLines matchingDirs
    cases hcl : classifyLine host line with
    | skip => exact ih inBlock seenPJ cfg
    | hostLine m => exact ih m seenPJ cfg
    | matchLine => exact ih false seenPJ cfg
    | directive k v =>
      cases inBlock with
      | false => exact ih false seenPJ cfg
      | true =>
        show processLines home host rest true (applyDirective home k v seenPJ cfg).1
            (applyDirective home k v seenPJ cfg).2 =
          mergeSpec cfg seenPJ home ((k, v) :: matchingDirs host rest true)
        rw [ih true _ _, mergeSpec_directive]

theorem proxy_jump_resolveDirs (home : List Char) (ds : List (List Char × List Char)) :
    (resolveDirs home ds).proxy_jump = pjResolve none ds := by
  induction ds with
  | nil => simp [resolveDirs, pjResolve, pjFirst, emptyHostConfig]
  | cons d ds2 ih =>
    obtain ⟨k, v⟩ := d
    by_cases hK1 : eqIgnoreCase k "ProxyJump".data = true
    · simp [resolveDirs, pjResolve, pjFirst_cons, hK1]
    · have hK1f : eqIgnoreCase k "ProxyJump".data = false := eq_false_of_ne_true hK1
      have hpj : pjResolve none ((k, v) :: ds2) = pjResolve none ds2 := by
        simp [pjResolve, pjFirst_cons, hK1f]
      rw [hpj, ← ih]
      simp only [resolveDirs]
      rw [if_neg (by rw [hK1f]; simp)]
      by_cases hK2 : eqIgnoreCase k "HostName".data = true
      · rw [if_pos hK2]
      · rw [if_neg hK2]
        by_cases hK3 : eqIgnoreCase k "User".data = true
        · rw [if_pos hK3]
        · rw [if_neg hK3]
          by_cases hK4 : eqIgnoreCase k "Port".data = true
          · rw [if_pos hK4]
          · rw [if_neg hK4]
            by_cases hK5 : eqIgnoreCase k "IdentityFile".data = true
            · rw [if_pos hK5]
            · rw [if_neg hK5]

theorem mergeSpec_empty (home : List Char) (ds : List (List Char × List Char)) :
    mergeSpec emptyHostConfig false home ds = resolveDirs home ds := by
  unfold mergeSpec emptyHostConfig
  rw [← proxy_jump_resolveDirs home ds]
  simp

/-- Counterexample to claim C8 as stated: on a config with two `Host` blocks
matching the host, resolution differs from what the first matching block
alone gives — the second block's `IdentityFile` and `Port` directives are
taken up. -/
theorem config_not_first_block_only :
    parse_ssh_host_config "/home/u".data "myhost".data twoBlockConfig ≠
      firstMatchingBlockConfig "/home/u".data "myhost".data twoBlockConfig := by
  decide

/-- Claim C8 (amended): destination resolution scans every matching `Host`
block in order: `HostName` and `User` take their first directive occurrence,
`Port` the first occurrence that parses as a 16-bit integer, `ProxyJump` its
first occurrence (with value `none` meaning no jump), and the `IdentityFile`
list accumulates the entries of all matching blocks in order; non-matching
blocks contribute nothing. -/
theorem config_all_matching_blocks (home host content : List Char) :
    parse_ssh_host_config home host content = allMatchingBlocksConfig home host content := by
  unfold parse_ssh_host_config allMatchingBlocksConfig
  rw [processLines_eq, mergeSpec_empty]

end Sshfwd
